import Mathlib

/-!
Verification development for the PESA consolidation & range-reconciliation
engine.

The definitions below are a shallow embedding of the TypeScript/JavaScript
source:

* `src/lib/xlsxParser.ts` — `parseXLSXFile` (row mapping / name filter) and
  `consolidateData` (per-file consolidation, column-key construction);
* `src/components/MasterTable.tsx` — `normalizeName`, `combineHoldings`,
  the dateKey decoders (`getBaseDate`, `getFileIndexFromDateKey`,
  `getSnapshotPosFromDateKey`), `fileGroupsAsc`, `summaryPeriodGroups` and
  `rawSummaryRows`;
* `server/server.cjs` — the `SummaryDynamic` spreadsheet formulas emitted by
  `GET /api/pesa/rn`.

Modelling conventions:

* JS strings are `List Char`; JS numbers holding cell values are `Int`
  (the data of interest is integral and the engine only adds/subtracts).
* JS `Map` and plain objects used as dictionaries are association lists
  (`List (κ × α)`): lookup finds the first binding, update rewrites the
  binding in place, and fresh keys are appended — this reproduces the
  insertion-order iteration semantics of `Map`/object keys that the source
  relies on.
* Calendar base dates travel through the engine only via
  `parseDate(...).getTime()` comparisons, so inside the pipeline a base
  date is an abstract chronological code `Nat` (order- and
  equality-faithful for valid calendar dates).  The string-level column-key
  codec (`"DD-MM-YYYY@@fileIndex-pos"`) is modelled separately, at the
  character-list level, for the reversibility claims.
-/

/-- One snapshot cell attached to an identity at one column key:
`{ value, bought, sold }` (MasterTable / xlsxParser `dateValues` entries). -/
structure SnapshotValue where
  value : Int
  bought : Int
  sold : Int
deriving DecidableEq, Repr

/-- A structured snapshot-column key, the decoded form of a dateKey string
`"<base>@@<fileIndex>-<pos>"` built by `consolidateData`.  `base` is the
chronological code of the calendar date; `pos` is 1 or 2 by construction. -/
structure SKey where
  base : Nat
  fi : Nat
  pos : Nat
deriving DecidableEq, Repr

/-- A holding record (`HoldingRecord` in `src/lib/db.ts`): one identity with
its snapshot map. -/
structure Holding where
  id : List Char
  dpid : List Char
  clientId : List Char
  name : List Char
  category : List Char
  dateValues : List (SKey × SnapshotValue)
deriving DecidableEq, Repr

/-- Generic association-list lookup: first binding for `k` (JS `Map.get`). -/
def alGet {κ α : Type} [DecidableEq κ] (m : List (κ × α)) (k : κ) : Option α :=
  (m.find? (fun e => decide (e.1 = k))).map (·.2)

/-- Generic association-list update: rewrite the first binding in place if
present, else append (JS `Map.set` / `obj[k] = v`). -/
def alSet {κ α : Type} [DecidableEq κ] (m : List (κ × α)) (k : κ) (a : α) :
    List (κ × α) :=
  if (alGet m k).isSome then
    m.map (fun e => if e.1 = k then (k, a) else e)
  else
    m ++ [(k, a)]

/-- Mutate the binding for `k` in place when present (models JS code that
fetches a record from a `Map` and mutates it). -/
def alModify {κ α : Type} [DecidableEq κ] (m : List (κ × α)) (k : κ)
    (f : α → α) : List (κ × α) :=
  m.map (fun e => if e.1 = k then (k, f e.2) else e)

/-- `/[.\s]/` character class of the normalizer: a period or whitespace. -/
def isDotWs (c : Char) : Bool :=
  c = '.' || c.isWhitespace

/-- JS `String.prototype.trim`: drop leading and trailing whitespace. -/
def trimWs (l : List Char) : List Char :=
  ((l.dropWhile Char.isWhitespace).reverse.dropWhile Char.isWhitespace).reverse

/-- `normalizeName` (MasterTable.tsx and server.cjs, identical bodies):
trim whitespace, strip the leading `[.\s]+` run, strip the trailing
`[.\s]+` run, final trim. -/
def normalizeName (l : List Char) : List Char :=
  trimWs (((trimWs l).dropWhile isDotWs).reverse.dropWhile isDotWs).reverse

/-- The combined-holdings identity key `` `${dpid}|${clientId}|${normalized}` ``
(MasterTable.tsx `combineHoldings`). -/
def identityKey (dpid clientId name : List Char) : List Char :=
  dpid ++ '|' :: clientId ++ '|' :: normalizeName name

/-- JS `str.split("@@")` at the character level: split on every occurrence of
the two-character separator `"@@"`, leftmost-first. -/
def splitOnAtAt : List Char → List (List Char)
  | [] => [[]]
  | [c] => [[c]]
  | c1 :: c2 :: rest =>
    if c1 = '@' ∧ c2 = '@' then [] :: splitOnAtAt rest
    else
      match splitOnAtAt (c2 :: rest) with
      | [] => [[c1]]
      | h :: t => (c1 :: h) :: t

/-- JS `str.split("-")` at the character level. -/
def splitOnDash : List Char → List (List Char)
  | [] => [[]]
  | c :: rest =>
    if c = '-' then [] :: splitOnDash rest
    else
      match splitOnDash rest with
      | [] => [[c]]
      | h :: t => (c :: h) :: t

/-- `'0'`-based digit character for `n < 10`. -/
def digitToChar (n : Nat) : Char :=
  Char.ofNat (48 + n)

/-- Base-10 rendering of a natural number, as JS string interpolation
`` `${i}` `` produces for a non-negative integer. -/
def natDigits (n : Nat) : List Char :=
  if n < 10 then [digitToChar n]
  else natDigits (n / 10) ++ [digitToChar (n % 10)]
decreasing_by
  exact Nat.div_lt_self (by omega) (by norm_num)

/-- Value of a digit string (used to state what JS `Number(...)` returns on
the digit-only strings the key codec produces). -/
def parseDigits (l : List Char) : Nat :=
  l.foldl (fun a c => a * 10 + (c.toNat - 48)) 0

/-- JS `Number(s)` restricted to the strings the dateKey codec feeds it:
`Number("") === 0`, a digit string parses to its value, and anything else is
`NaN` (surfaced as `none`, which the decoders turn into `null`). -/
def jsNumber (l : List Char) : Option Nat :=
  if l = [] then some 0
  else if l.all (fun c => 48 ≤ c.toNat && c.toNat ≤ 57) then some (parseDigits l)
  else none

/-- `getBaseDate` (MasterTable.tsx / server.cjs): text before the first
`"@@"`, falling back to the whole key when that part is empty
(`str.split("@@")[0] || str`). -/
def getBaseDateC (key : List Char) : List Char :=
  let base := (splitOnAtAt key).headD []
  if base = [] then key else base

/-- `getFileIndexFromDateKey`: `Number(parts[1].split("-")[0])`, `null` when
there is no `"@@"` metadata or the number is `NaN`. -/
def getFileIndexFromDateKeyC (key : List Char) : Option Nat :=
  match splitOnAtAt key with
  | _ :: meta :: _ => jsNumber ((splitOnDash meta).headD [])
  | _ => none

/-- `getSnapshotPosFromDateKey`: `Number(parts[1].split("-")[1])`, `null`
when the metadata or the second dash segment is missing or `NaN`. -/
def getSnapshotPosFromDateKeyC (key : List Char) : Option Nat :=
  match splitOnAtAt key with
  | _ :: meta :: _ =>
    match (splitOnDash meta).get? 1 with
    | some s => jsNumber s
    | none => none
  | _ => none

/-- The dateKey template of `consolidateData`:
`` `${baseDate}@@${fileIndex}-${pos}` ``. -/
def encodeDateKey (base : List Char) (fileIndex : Nat) (pos : Nat) : List Char :=
  base ++ '@' :: '@' :: (natDigits fileIndex ++ '-' :: natDigits pos)

/-- One mapped spreadsheet row of `parseXLSXFile` (xlsxParser.ts): string
cells defaulted to `""`, numeric cells already passed through `toNumber`. -/
structure ParsedRow where
  dpid : List Char
  clientId : List Char
  name : List Char
  category : List Char
  firstValue : Int
  secondValue : Int
  bought : Int
  sold : Int
deriving DecidableEq, Repr

/-- One parsed file (`ParsedFile` in xlsxParser.ts): the two AS-ON dates
(already sorted by `parseXLSXFile`, so `firstDate ≤ secondDate`) and its
rows. -/
structure ParsedFile where
  firstDate : Nat
  secondDate : Nat
  rows : List ParsedRow
deriving DecidableEq, Repr

/-- `consolidateData`'s per-row map key `` `${dpid}-${clientId}-${name}` ``
(the naive string join, kept as such: the fragility of `-` occurring inside
fields is part of the source). -/
def rawRowKey (row : ParsedRow) : List Char :=
  row.dpid ++ '-' :: row.clientId ++ '-' :: row.name

/-- The `HoldingRecord` freshly created by `consolidateData` for an unseen
row key. -/
def freshHolding (rowKey : List Char) (row : ParsedRow) : Holding :=
  { id := rowKey, dpid := row.dpid, clientId := row.clientId, name := row.name,
    category := row.category, dateValues := [] }

/-- The body of `consolidateData`'s inner row loop: create the record if
absent, then assign `dateValues[firstKey]` and `dateValues[secondKey]`
(plain JS assignment — it overwrites), then overwrite `category` when the
row's category is non-empty. -/
def ingestRow (m : List (List Char × Holding)) (firstKey secondKey : SKey)
    (row : ParsedRow) : List (List Char × Holding) :=
  let rowKey := rawRowKey row
  let m1 := if (alGet m rowKey).isSome then m else m ++ [(rowKey, freshHolding rowKey row)]
  alModify m1 rowKey (fun h =>
    let dv :=
      alSet (alSet h.dateValues firstKey ⟨row.firstValue, 0, 0⟩) secondKey
        ⟨row.secondValue, row.bought, row.sold⟩
    let h1 := { h with dateValues := dv }
    if row.category ≠ [] then { h1 with category := row.category } else h1)

/-- `consolidateData`'s outer loop over the sorted files, with `i` the
file's position in the sorted batch (its `fileIndex`). -/
def ingestFiles : Nat → List (List Char × Holding) → List ParsedFile →
    List (List Char × Holding)
  | _, m, [] => m
  | i, m, f :: rest =>
    ingestFiles (i + 1)
      (f.rows.foldl (fun m row => ingestRow m ⟨f.firstDate, i, 1⟩ ⟨f.secondDate, i, 2⟩ row) m)
      rest

/-- The column instances built by `consolidateData` (two per file, in sorted
file order). -/
def buildColumns : Nat → List ParsedFile → List SKey
  | _, [] => []
  | i, f :: rest => ⟨f.firstDate, i, 1⟩ :: ⟨f.secondDate, i, 2⟩ :: buildColumns (i + 1) rest

/-- The comparator `consolidateData` sorts column instances with: by base
date, then file index, then position. -/
def colLe (a b : SKey) : Prop :=
  a.base < b.base ∨ (a.base = b.base ∧ (a.fi < b.fi ∨ (a.fi = b.fi ∧ a.pos ≤ b.pos)))

instance : DecidableRel colLe := fun a b => by
  unfold colLe
  infer_instance

/-- The comparator `consolidateData` sorts the file batch with: by each
file's second AS-ON date, ascending.  (`Array.prototype.sort` is stable;
so is `List.insertionSort`.) -/
def fileLe (a b : ParsedFile) : Prop :=
  a.secondDate ≤ b.secondDate

instance : DecidableRel fileLe := fun a b => by
  unfold fileLe
  infer_instance

/-- `consolidateData` (xlsxParser.ts): sort the batch by second date, build
the uniquely-keyed column list, then fold every file's rows into the
holdings map.  Returns `(holdings, dates)`. -/
def consolidateData (parsedFiles : List ParsedFile) : List Holding × List SKey :=
  if parsedFiles = [] then ([], [])
  else
    let sortedFiles := List.insertionSort fileLe parsedFiles
    let dates := List.insertionSort colLe (buildColumns 0 sortedFiles)
    let holdingsMap := ingestFiles 0 [] sortedFiles
    (holdingsMap.map (·.2), dates)

/-- `combineHoldings`' snapshot-map merge: walk the incoming record's
`dateValues` entries; sum `value`/`bought`/`sold` into an existing entry
with the same key, otherwise add the entry. -/
def mergeDateValues (acc incoming : List (SKey × SnapshotValue)) :
    List (SKey × SnapshotValue) :=
  incoming.foldl (fun acc e =>
    match alGet acc e.1 with
    | some dv => alSet acc e.1 ⟨dv.value + e.2.value, dv.bought + e.2.bought, dv.sold + e.2.sold⟩
    | none => acc ++ [(e.1, e.2)]) acc

/-- One step of `combineHoldings`' fold over the raw records. -/
def combineStep (m : List (List Char × Holding)) (h : Holding) :
    List (List Char × Holding) :=
  let key := identityKey h.dpid h.clientId h.name
  match alGet m key with
  | none => m ++ [(key, { h with id := key, name := normalizeName h.name })]
  | some _ =>
    alModify m key (fun ex =>
      let ex1 := { ex with dateValues := mergeDateValues ex.dateValues h.dateValues }
      if ex1.category = [] ∧ h.category ≠ [] then { ex1 with category := h.category } else ex1)

/-- `combineHoldings` (MasterTable.tsx): merge duplicate holdings by the
normalized `dpid|clientId|name` key. -/
def combineHoldings (raw : List Holding) : List Holding :=
  (raw.foldl combineStep []).map (·.2)

/-- A per-file group of snapshot-column keys (`FileGroup` in
MasterTable.tsx). -/
structure FileGroup where
  fileIndex : Nat
  dateKeys : List SKey
deriving DecidableEq, Repr

/-- The grouping loop of `fileGroupsAsc`: bucket the dateKeys by file index
in first-seen order.  (The source's `fi ?? -1` fallback for keys without
metadata is unreachable for the structured keys `consolidateData`
produces.) -/
def groupByFileIndex (dates : List SKey) : List (Nat × List SKey) :=
  dates.foldl (fun m k =>
    match alGet m k.fi with
    | some ks => alSet m k.fi (ks ++ [k])
    | none => m ++ [(k.fi, [k])]) []

/-- Within-group comparator of `fileGroupsAsc`: by base date. -/
def baseLe (a b : SKey) : Prop :=
  a.base ≤ b.base

instance : DecidableRel baseLe := fun a b => by
  unfold baseLe
  infer_instance

/-- `fileGroupsAsc` (MasterTable.tsx): group the dateKeys by file index,
sort groups by `fileIndex` ascending, and each group's keys by base date. -/
def fileGroupsAsc (dates : List SKey) : List FileGroup :=
  if dates = [] then []
  else
    let grouped := groupByFileIndex dates
    let sortedKeys := List.insertionSort (· ≤ ·) (grouped.map (·.1))
    sortedKeys.map (fun fi =>
      { fileIndex := fi, dateKeys := List.insertionSort baseLe ((alGet grouped fi).getD []) })

/-- The UI's "Reverse Dates" toggle. -/
inductive DateOrder
  | asc
  | desc
deriving DecidableEq, Repr

/-- `fileGroups` (MasterTable.tsx): the presentation sequence — ascending,
or reversed when the toggle is set. -/
def fileGroups (dates : List SKey) : DateOrder → List FileGroup
  | .asc => fileGroupsAsc dates
  | .desc => (fileGroupsAsc dates).reverse

/-- `dateKeysInSummaryRange` (MasterTable.tsx): the dateKeys whose base date
falls inside the normalized inclusive range `[lo, hi]`. -/
def dateKeysInSummaryRange (dates : List SKey) (lo hi : Nat) : List SKey :=
  dates.filter (fun k => lo ≤ k.base && k.base ≤ hi)

/-- One entry of `summaryPeriodGroups`: a file group restricted to the
range, with its position-1 and position-2 keys when in range. -/
structure SummaryGroup where
  fileIndex : Nat
  firstKey : Option SKey
  secondKey : Option SKey
deriving DecidableEq, Repr

/-- `summaryPeriodGroups` (MasterTable.tsx): walk `fileGroupsAsc` (never the
reversed presentation order), keep each group's pos-1/pos-2 keys only when
in range, and drop groups with neither. -/
def summaryPeriodGroups (dates : List SKey) (lo hi : Nat) : List SummaryGroup :=
  let inRange := dateKeysInSummaryRange dates lo hi
  (fileGroupsAsc dates).filterMap (fun g =>
    let k1 := g.dateKeys.find? (fun k => k.pos == 1)
    let k2 := g.dateKeys.find? (fun k => k.pos == 2)
    let firstKey := match k1 with
      | some k => if inRange.contains k then some k else none
      | none => none
    let secondKey := match k2 with
      | some k => if inRange.contains k then some k else none
      | none => none
    if firstKey.isNone && secondKey.isNone then none
    else some ⟨g.fileIndex, firstKey, secondKey⟩)

/-- A computed summary row (`rawSummaryRows` output shape). -/
structure SummaryRow where
  id : List Char
  dpid : List Char
  clientId : List Char
  category : List Char
  name : List Char
  initialHolding : Int
  bought : Int
  sold : Int
  net : Int
  stillHolding : Int
deriving DecidableEq, Repr

/-- `endMode` of the reconciler: whether the chosen end value came from a
position-2 or a position-1 snapshot. -/
inductive EndMode
  | pos1
  | pos2
deriving DecidableEq, Repr

/-- Resolve an optional group key against a holding's snapshot map
(`g.firstKey ? h.dateValues[g.firstKey] : undefined`). -/
def dvOf (h : Holding) (ok : Option SKey) : Option SnapshotValue :=
  ok.bind (fun k => alGet h.dateValues k)

/-- The per-group pair `(dv1, dv2)` the reconciler's loop reads. -/
abbrev DVPair := Option SnapshotValue × Option SnapshotValue

/-- The `(dv1, dv2)` pairs of one holding along the period-group walk. -/
def dvPairs (groups : List SummaryGroup) (h : Holding) : List DVPair :=
  groups.map (fun g => (dvOf h g.firstKey, dvOf h g.secondKey))

/-- The reconciler's start search (`startIdx`/`initialHolding` of the first
loop in `rawSummaryRows`): the first group with data; prefer the pos-1
value, else reconstruct the baseline `v2 - (bought - sold)` from pos-2. -/
def findStart : List DVPair → Option (Nat × Int)
  | [] => none
  | (dv1, dv2) :: rest =>
    match dv1 with
    | some v => some (0, v.value)
    | none =>
      match dv2 with
      | some v => some (0, v.value - (v.bought - v.sold))
      | none => (findStart rest).map (fun p => (p.1 + 1, p.2))

/-- The reconciler's end search (`endIdx`/`endMode` of the same loop): the
last group with data; `pos2` when that group has an in-range second value,
else `pos1`.  (The raw `endSnapshotValue` the loop also records is unused
by the emitted row, whose `stillHolding` is always the reconciled figure.) -/
def findEnd : List DVPair → Option (Nat × EndMode)
  | [] => none
  | (dv1, dv2) :: rest =>
    match findEnd rest with
    | some p => some (p.1 + 1, p.2)
    | none =>
      match dv2 with
      | some _ => some (0, EndMode.pos2)
      | none =>
        match dv1 with
        | some _ => some (0, EndMode.pos1)
        | none => none

/-- The delta-accumulation loop of `rawSummaryRows`: walk the groups with
index `i`; inside `[startIdx, endIdx]`, add the pos-2 `bought`/`sold` —
except at the end group when `endMode` is `pos1`.  (The source iterates `i`
from `startIdx` to `endIdx`; the guard reproduces that window.) -/
def deltaLoop (startIdx endIdx : Nat) (endMode : EndMode) :
    Nat → Int × Int → List DVPair → Int × Int
  | _, acc, [] => acc
  | i, acc, (_, dv2) :: rest =>
    let acc1 :=
      if startIdx ≤ i ∧ i ≤ endIdx then
        match dv2 with
        | some v =>
          if i < endIdx ∨ (i = endIdx ∧ endMode = EndMode.pos2) then
            (acc.1 + v.bought, acc.2 + v.sold)
          else acc
        | none => acc
      else acc
    deltaLoop startIdx endIdx endMode (i + 1) acc1 rest

/-- The zero row emitted when an identity has no data in range. -/
def zeroSummaryRow (h : Holding) : SummaryRow :=
  { id := h.id, dpid := h.dpid, clientId := h.clientId, category := h.category,
    name := h.name, initialHolding := 0, bought := 0, sold := 0, net := 0,
    stillHolding := 0 }

/-- One row of `rawSummaryRows` (MasterTable.tsx): find start and end, sum
the deltas, and emit the reconciled row with `net = bought - sold` and
`stillHolding = initialHolding + net`. -/
def rawSummaryRow (groups : List SummaryGroup) (h : Holding) : SummaryRow :=
  let dvps := dvPairs groups h
  match findStart dvps, findEnd dvps with
  | some s, some e =>
    let t := deltaLoop s.1 e.1 e.2 0 (0, 0) dvps
    let net := t.1 - t.2
    { id := h.id, dpid := h.dpid, clientId := h.clientId, category := h.category,
      name := h.name, initialHolding := s.2, bought := t.1, sold := t.2, net := net,
      stillHolding := s.2 + net }
  | _, _ => zeroSummaryRow h

/-- `rawSummaryRows` (MasterTable.tsx): one reconciled row per holding, over
the range-restricted chronological period groups. -/
def rawSummaryRows (holdings : List Holding) (dates : List SKey) (lo hi : Nat) :
    List SummaryRow :=
  holdings.map (rawSummaryRow (summaryPeriodGroups dates lo hi))

/-- `KeyDateRank` of the ByDate sheet: `BaseDateExcel * 10 + SnapshotPos`
(server.cjs, `/api/pesa/rn`). -/
def rankOf (k : SKey) : Nat :=
  k.base * 10 + k.pos

/-- The ByDate rows of one identity restricted to the date-range criteria
`">="&start, "<="&end` shared by the `SummaryDynamic` formulas.  The ByDate
sheet carries one row per persisted snapshot cell of the identity — the
entries of its consolidated snapshot map. -/
def inRangeEntries (h : Holding) (lo hi : Nat) : List (SKey × SnapshotValue) :=
  h.dateValues.filter (fun e => lo ≤ e.1.base && e.1.base ≤ hi)

/-- `MINIFS(rank, key, date-in-range)` over the identity's ByDate rows:
the minimum `KeyDateRank` among matches, and 0 when nothing matches
(Excel's `MINIFS` convention). -/
def minifsRank (h : Holding) (lo hi : Nat) : Nat :=
  match (inRangeEntries h lo hi).map (fun e => rankOf e.1) with
  | [] => 0
  | r :: rs => rs.foldl Nat.min r

/-- `XLOOKUP(key&"|"&rank, KeyRank, SnapshotPos, 0)`: the position of the
first ByDate row of this identity whose rank matches, else 0. -/
def xlookupPos (h : Holding) (r : Nat) : Nat :=
  match h.dateValues.find? (fun e => rankOf e.1 == r) with
  | some e => e.1.pos
  | none => 0

/-- `XLOOKUP(key&"|"&rank, KeyRank, <numeric column>, 0)`. -/
def xlookupVal (h : Holding) (r : Nat) (sel : SnapshotValue → Int) : Int :=
  match h.dateValues.find? (fun e => rankOf e.1 == r) with
  | some e => sel e.2
  | none => 0

/-- The `SummaryDynamic` "Initial Holding" formula (server.cjs):
`LET(sr, MINIFS(...), sp/sv/sb/ss, XLOOKUP(...), IF(sp=1, sv, sv-(sb-ss)))`
wrapped in `IFERROR(..., 0)`. -/
def formulaInitial (h : Holding) (lo hi : Nat) : Int :=
  let sr := minifsRank h lo hi
  let sp := xlookupPos h sr
  let sv := xlookupVal h sr (·.value)
  let sb := xlookupVal h sr (·.bought)
  let ss := xlookupVal h sr (·.sold)
  if sp = 1 then sv else sv - (sb - ss)

/-- The `SummaryDynamic` "Bought" formula:
`SUMIFS(Bought, Key, k, Date, ">="&start, Date, "<="&end, Pos, 2)` —
an unconditional in-range position-2 sum, with no `endMode` test. -/
def formulaBought (h : Holding) (lo hi : Nat) : Int :=
  ((h.dateValues.filter (fun e => (lo ≤ e.1.base && e.1.base ≤ hi) && e.1.pos == 2)).map
    (fun e => e.2.bought)).sum

/-- The `SummaryDynamic` "Sold" formula (same shape as "Bought"). -/
def formulaSold (h : Holding) (lo hi : Nat) : Int :=
  ((h.dateValues.filter (fun e => (lo ≤ e.1.base && e.1.base ≤ hi) && e.1.pos == 2)).map
    (fun e => e.2.sold)).sum

/-- The `SummaryDynamic` "Net (Bought-Sold)" formula `G-H`. -/
def formulaNet (h : Holding) (lo hi : Nat) : Int :=
  formulaBought h lo hi - formulaSold h lo hi

/-- The `SummaryDynamic` "Still Holding" formula `F+I`. -/
def formulaStill (h : Holding) (lo hi : Nat) : Int :=
  formulaInitial h lo hi + formulaNet h lo hi

/-- One raw spreadsheet row as `parseXLSXFile` sees it after
`sheet_to_json`: the identity cells may be absent, the numeric cells are
shown after `toNumber` (numeric parsing is orthogonal to the row filter
modelled here). -/
structure RawRow where
  dpid : Option (List Char)
  clientId : Option (List Char)
  name : Option (List Char)
  category : Option (List Char)
  firstCell : Int
  secondCell : Int
  boughtCell : Int
  soldCell : Int
deriving DecidableEq, Repr

/-- JS `String(x || "")` on an optional string cell: a missing cell (and an
empty string, which is falsy) becomes `""`. -/
def jsOrEmpty (o : Option (List Char)) : List Char :=
  o.getD []

/-- The row mapping of `parseXLSXFile`: default every string cell to `""`. -/
def mapRawRow (r : RawRow) : ParsedRow :=
  { dpid := jsOrEmpty r.dpid, clientId := jsOrEmpty r.clientId,
    name := jsOrEmpty r.name, category := jsOrEmpty r.category,
    firstValue := r.firstCell, secondValue := r.secondCell,
    bought := r.boughtCell, sold := r.soldCell }

/-- The row stage of `parseXLSXFile`:
`jsonData.map(row => ({...})).filter(row => row.name)` — map the cells, then
keep only rows whose NAME is truthy (non-empty). -/
def parseFileRows (raws : List RawRow) : List ParsedRow :=
  (raws.map mapRawRow).filter (fun row => !row.name.isEmpty)

/-- Claim-side restatement for the delta-accumulation rule, walking the
groups with their index `i`: group `i` contributes the `sel` field of its
second-key value exactly when `startIdx ≤ i ≤ endIdx` and either `i` is
before the end group or `endMode` is `pos2`. -/
def claimedDeltaSumFrom (startIdx endIdx : Nat) (endMode : EndMode)
    (sel : SnapshotValue → Int) : Nat → List DVPair → Int
  | _, [] => 0
  | i, p :: rest =>
    (if startIdx ≤ i ∧ i ≤ endIdx ∧ (i < endIdx ∨ endMode = EndMode.pos2) then
      match p.2 with
      | some v => sel v
      | none => 0
    else 0) + claimedDeltaSumFrom startIdx endIdx endMode sel (i + 1) rest

/-- Claim-side restatement for the delta-accumulation rule: the sum of the
`sel` field of the second-key values over the in-range groups from the start
index through the end index inclusive, except the end group when `endMode`
is `pos1`. -/
def claimedDeltaSum (dvps : List DVPair) (startIdx endIdx : Nat)
    (endMode : EndMode) (sel : SnapshotValue → Int) : Int :=
  claimedDeltaSumFrom startIdx endIdx endMode sel 0 dvps

/-- Claim-side helper for the ordering property: the calendar date of
whichever of a group's keys exists, preferring the earlier one (the
chronologically first base date among the group's keys). -/
def groupEarliestBase (g : FileGroup) : Nat :=
  match g.dateKeys.map (·.base) with
  | [] => 0
  | b :: bs => bs.foldl Nat.min b

/-- The same notion on a range-restricted summary group. -/
def summaryGroupEarliestBase (g : SummaryGroup) : Nat :=
  match (g.firstKey.toList ++ g.secondKey.toList).map (·.base) with
  | [] => 0
  | b :: bs => bs.foldl Nat.min b

def c4FileA : ParsedFile :=
  { firstDate := 100, secondDate := 110,
    rows := [{ dpid := "D".toList, clientId := "C".toList, name := "N".toList,
               category := [], firstValue := 100, secondValue := 110,
               bought := 10, sold := 0 }] }

def c4FileB : ParsedFile :=
  { firstDate := 105, secondDate := 108,
    rows := [{ dpid := "D".toList, clientId := "C".toList, name := "N".toList,
               category := [], firstValue := 200, secondValue := 210,
               bought := 10, sold := 0 }] }

def c4Pipeline : List Holding × List SKey := consolidateData [c4FileA, c4FileB]

def c4Holding : Holding :=
  c4Pipeline.1.getD 0
    { id := [], dpid := [], clientId := [], name := [], category := [],
      dateValues := [] }

/-- Concrete inputs for the C1 witness: one identity with one file period. -/
def c1Holding : Holding :=
  { id := "D|C|N".toList, dpid := "D".toList, clientId := "C".toList, name := "N".toList,
    category := [], dateValues := [(⟨100, 0, 1⟩, ⟨7, 0, 0⟩), (⟨110, 0, 2⟩, ⟨9, 3, 1⟩)] }

/-- Concrete dateKey list for the C1 witness. -/
def c1Dates : List SKey := [⟨100, 0, 1⟩, ⟨110, 0, 2⟩]

/-- The C1 witness row. -/
def c1Row : SummaryRow := rawSummaryRow (summaryPeriodGroups c1Dates 0 200) c1Holding

/-- Concrete holding for the C2 witness: only a position-2 snapshot in
range, with `value = 1000`, `bought = 200`, `sold = 50`. -/
def c2Holding : Holding :=
  { id := "D|C|N".toList, dpid := "D".toList, clientId := "C".toList, name := "N".toList,
    category := [], dateValues := [(⟨100, 0, 1⟩, ⟨900, 0, 0⟩), (⟨110, 0, 2⟩, ⟨1000, 200, 50⟩)] }

/-- Concrete dateKey list for the C2 witness. -/
def c2Dates : List SKey := [⟨100, 0, 1⟩, ⟨110, 0, 2⟩]

/-- Concrete raw rows for the C10 witness: the first row has data in every
cell except NAME. -/
def c10Raws : List RawRow :=
  [ { dpid := some "D9".toList, clientId := some "C9".toList, name := none,
      category := some "X".toList, firstCell := 5, secondCell := 6,
      boughtCell := 1, soldCell := 2 },
    { dpid := some "D1".toList, clientId := some "C1".toList, name := some "N".toList,
      category := none, firstCell := 7, secondCell := 8,
      boughtCell := 3, soldCell := 4 } ]

/-- Files for the C8 duplicate-date scenario: two different files whose
second AS-ON column reports the same calendar date. -/
def c8FileA : ParsedFile :=
  { firstDate := 90, secondDate := 100,
    rows := [{ dpid := "D".toList, clientId := "C".toList, name := "N".toList,
               category := [], firstValue := 10, secondValue := 11, bought := 1, sold := 0 }] }

/-- Second file of the C8 scenario (same second calendar date as the first). -/
def c8FileB : ParsedFile :=
  { firstDate := 95, secondDate := 100,
    rows := [{ dpid := "D".toList, clientId := "C".toList, name := "N".toList,
               category := [], firstValue := 20, secondValue := 21, bought := 2, sold := 0 }] }

/-- Placeholder holding for `headD`. -/
def emptyHolding : Holding :=
  { id := [], dpid := [], clientId := [], name := [], category := [], dateValues := [] }

/-- The consolidated record of the C8 duplicate-date scenario. -/
def c8Record : Holding :=
  ((consolidateData [c8FileA, c8FileB]).1).headD emptyHolding

/-- Concrete file for the C5 counterexample: two raw rows with identical
raw identity strings in the same file (values 10 and 20). -/
def c5File : ParsedFile :=
  { firstDate := 100, secondDate := 110,
    rows := [{ dpid := "D".toList, clientId := "C".toList, name := "N".toList,
               category := "A".toList, firstValue := 10, secondValue := 11,
               bought := 1, sold := 0 },
             { dpid := "D".toList, clientId := "C".toList, name := "N".toList,
               category := "B".toList, firstValue := 20, secondValue := 21,
               bought := 2, sold := 0 }] }

/-- Concrete holdings for the C5 witness. -/
def c5H1 : Holding :=
  { id := "x".toList, dpid := "D".toList, clientId := "C".toList,
    name := "N".toList, category := [],
    dateValues := [(⟨100, 0, 1⟩, ⟨5, 0, 0⟩)] }

/-- Second concrete holding for the C5 witness (same identity after
normalization). -/
def c5H2 : Holding :=
  { id := "y".toList, dpid := "D".toList, clientId := "C".toList,
    name := " N. ".toList, category := "B".toList,
    dateValues := [(⟨100, 0, 1⟩, ⟨7, 0, 0⟩), (⟨110, 0, 2⟩, ⟨9, 3, 1⟩)] }

/-- Concrete file for the C6 counterexample: same raw identity twice, first
category `"A"`, second category `"B"`. -/
def c6File : ParsedFile :=
  { firstDate := 100, secondDate := 110,
    rows := [{ dpid := "D".toList, clientId := "C".toList, name := "N".toList,
               category := "A".toList, firstValue := 1, secondValue := 2,
               bought := 0, sold := 0 },
             { dpid := "D".toList, clientId := "C".toList, name := "N".toList,
               category := "B".toList, firstValue := 3, secondValue := 4,
               bought := 0, sold := 0 }] }

/-- Concrete holdings for the C6 witness (first category non-empty, second
different and non-empty). -/
def c6H1 : Holding :=
  { id := "x".toList, dpid := "D".toList, clientId := "C".toList,
    name := "N".toList, category := "A".toList, dateValues := [] }

/-- Second concrete holding for the C6 witness. -/
def c6H2 : Holding :=
  { id := "y".toList, dpid := "D".toList, clientId := "C".toList,
    name := "N.".toList, category := "B".toList, dateValues := [] }

/-- Concrete holding for the C3 witness: two file periods, deltas in both,
the end value coming from a position-1 snapshot (so the end group's delta
is excluded). -/
def c3Holding : Holding :=
  { id := "D|C|N".toList, dpid := "D".toList, clientId := "C".toList, name := "N".toList,
    category := [],
    dateValues := [(⟨100, 0, 1⟩, ⟨50, 0, 0⟩), (⟨110, 0, 2⟩, ⟨60, 15, 5⟩),
                   (⟨120, 1, 1⟩, ⟨60, 0, 0⟩), (⟨130, 1, 2⟩, ⟨70, 10, 0⟩)] }

/-- Concrete dateKey list for the C3 witness (second file's position-2 key
dated 130, which the range below excludes). -/
def c3Dates : List SKey := [⟨100, 0, 1⟩, ⟨110, 0, 2⟩, ⟨120, 1, 1⟩, ⟨130, 1, 2⟩]

instance : IsTotal ParsedFile fileLe :=
  ⟨fun a b => Nat.le_total a.secondDate b.secondDate⟩

instance : IsTrans ParsedFile fileLe :=
  ⟨fun _ _ _ hab hbc => Nat.le_trans hab hbc⟩

instance : IsRefl ParsedFile fileLe :=
  ⟨fun a => Nat.le_refl a.secondDate⟩

/-- First file of the C7 counterexample: period 100 → 110. -/
def c7FileA : ParsedFile :=
  { firstDate := 100, secondDate := 110,
    rows := [{ dpid := "D".toList, clientId := "C".toList, name := "N".toList,
               category := [], firstValue := 1, secondValue := 2, bought := 0, sold := 0 }] }

/-- Second file of the C7 counterexample: period 105 → 108, nested inside
the first file's period. -/
def c7FileB : ParsedFile :=
  { firstDate := 105, secondDate := 108,
    rows := [{ dpid := "D".toList, clientId := "C".toList, name := "N".toList,
               category := [], firstValue := 3, secondValue := 4, bought := 0, sold := 0 }] }

def fullDeltaSum (sel : SnapshotValue → Int) : List DVPair → Int
  | [] => 0
  | p :: rest =>
    (match p.2 with
     | some v => sel v
     | none => 0) + fullDeltaSum sel rest

def groupDeltaSum (sel : SnapshotValue → Int) (dvl : List (SKey × SnapshotValue)) :
    List SummaryGroup → Int
  | [] => 0
  | g :: gs =>
    (match g.secondKey.bind (alGet dvl) with
     | some v => sel v
     | none => 0) + groupDeltaSum sel dvl gs

theorem rawSummaryRow_net_still (groups : List SummaryGroup) (h : Holding) :
    (rawSummaryRow groups h).net =
      (rawSummaryRow groups h).bought - (rawSummaryRow groups h).sold ∧
    (rawSummaryRow groups h).stillHolding =
      (rawSummaryRow groups h).initialHolding + (rawSummaryRow groups h).net := by
  unfold rawSummaryRow
  dsimp only
  split
  · simp
  · simp [zeroSummaryRow]

theorem findStart_append_pos2 (pre : List DVPair) (v : SnapshotValue) (rest : List DVPair)
    (hpre : ∀ p ∈ pre, p = ((none : Option SnapshotValue), (none : Option SnapshotValue))) :
    findStart (pre ++ (none, some v) :: rest) =
      some (pre.length, v.value - (v.bought - v.sold)) := by
  induction pre with
  | nil => simp [findStart]
  | cons p pre ih =>
    have hp := hpre p (by simp)
    subst hp
    rw [List.cons_append]
    simp only [findStart, ih (fun q hq => hpre q (by simp [hq])), Option.map_some]
    simp [List.length_cons]

theorem findEnd_eq_none_forall (l : List DVPair) (h : findEnd l = none) :
    ∀ p ∈ l, p = ((none : Option SnapshotValue), (none : Option SnapshotValue)) := by
  induction l with
  | nil => simp
  | cons p rest ih =>
    obtain ⟨dv1, dv2⟩ := p
    intro q hq
    cases hrest : findEnd rest with
    | some e => simp [findEnd, hrest] at h
    | none =>
      cases dv2 with
      | some v => simp [findEnd, hrest] at h
      | none =>
        cases dv1 with
        | some v => simp [findEnd, hrest] at h
        | none =>
          rcases List.mem_cons.mp hq with hq | hq
          · exact hq
          · exact ih hrest q hq

/-- Claim C1: for every holding record and every inclusive date range, the
computed summary row satisfies `net = bought - sold` and
`stillHolding = initialHolding + net` exactly; `stillHolding` is produced as
`initialHolding + net` by construction, never taken from an observed
snapshot value. -/
theorem claim_reconciliation_invariant (holdings : List Holding) (dates : List SKey)
    (lo hi : Nat) (r : SummaryRow) (hr : r ∈ rawSummaryRows holdings dates lo hi) :
    r.net = r.bought - r.sold ∧ r.stillHolding = r.initialHolding + r.net := by
  rcases List.mem_map.mp hr with ⟨h, _, rfl⟩
  exact rawSummaryRow_net_still _ _

/-- Witness for C1 at a concrete holding, date list and range. -/
theorem claim_reconciliation_invariant_witness :
    c1Row.net = c1Row.bought - c1Row.sold ∧
    c1Row.stillHolding = c1Row.initialHolding + c1Row.net :=
  claim_reconciliation_invariant [c1Holding] c1Dates 0 200 c1Row
    (List.mem_singleton.mpr rfl)

/-- Claim C2: when the first in-range file group with data for an identity
has no position-1 value but has a position-2 value, the reconciler sets
`initialHolding := secondKeyValue - (secondKeyBought - secondKeySold)`. -/
theorem claim_pos2_baseline_reconstruction (dates : List SKey) (lo hi : Nat)
    (h : Holding) (pre : List SummaryGroup) (g : SummaryGroup)
    (rest : List SummaryGroup) (v : SnapshotValue)
    (hsplit : summaryPeriodGroups dates lo hi = pre ++ g :: rest)
    (hpre : ∀ g' ∈ pre, dvOf h g'.firstKey = none ∧ dvOf h g'.secondKey = none)
    (h1 : dvOf h g.firstKey = none)
    (h2 : dvOf h g.secondKey = some v) :
    (rawSummaryRow (summaryPeriodGroups dates lo hi) h).initialHolding =
      v.value - (v.bought - v.sold) := by
  have hdv : dvPairs (summaryPeriodGroups dates lo hi) h =
      dvPairs pre h ++ ((none : Option SnapshotValue), some v) :: dvPairs rest h := by
    rw [hsplit]
    simp [dvPairs, h1, h2]
  have hprePairs : ∀ p ∈ dvPairs pre h,
      p = ((none : Option SnapshotValue), (none : Option SnapshotValue)) := by
    intro p hp
    rcases List.mem_map.mp hp with ⟨g', hg', rfl⟩
    have hg := hpre g' hg'
    simp [hg.1, hg.2]
  have hstart := findStart_append_pos2 (dvPairs pre h) v (dvPairs rest h) hprePairs
  unfold rawSummaryRow
  dsimp only
  rw [hdv, hstart]
  cases he : findEnd (dvPairs pre h ++ ((none : Option SnapshotValue), some v) :: dvPairs rest h) with
  | none =>
    exfalso
    have hcontra := findEnd_eq_none_forall _ he ((none : Option SnapshotValue), some v) (by simp)
    simp at hcontra
  | some e => simp

/-- Witness for C2: the single in-range group carries only the position-2
snapshot `value=1000, bought=200, sold=50`, and the reconciler produces
`initialHolding = 1000 - (200 - 50) = 850`. -/
theorem claim_pos2_baseline_reconstruction_witness :
    (rawSummaryRow (summaryPeriodGroups c2Dates 105 200) c2Holding).initialHolding = 850 := by
  have happ := claim_pos2_baseline_reconstruction c2Dates 105 200 c2Holding []
    ⟨0, none, some ⟨110, 0, 2⟩⟩ [] ⟨1000, 200, 50⟩ (by decide) (by simp) (by decide) (by decide)
  simpa using happ

theorem dropWhile_dropWhile_of_imp {α : Type} (p q : α → Bool)
    (himp : ∀ c, q c = true → p c = true) (l : List α) :
    (l.dropWhile q).dropWhile p = l.dropWhile p := by
  induction l with
  | nil => rfl
  | cons c tl ih =>
    by_cases hq : q c = true
    · rw [List.dropWhile_cons_of_pos hq, ih, List.dropWhile_cons_of_pos (himp c hq)]
    · rw [List.dropWhile_cons_of_neg hq]

theorem dropWhile_absorb_of_imp {α : Type} (p q : α → Bool)
    (himp : ∀ c, q c = true → p c = true) (l : List α) :
    (l.dropWhile p).dropWhile q = l.dropWhile p := by
  induction l with
  | nil => rfl
  | cons c tl ih =>
    by_cases hp : p c = true
    · rw [List.dropWhile_cons_of_pos hp, ih]
    · have hq : ¬q c = true := fun hc => hp (himp c hc)
      rw [List.dropWhile_cons_of_neg hp, List.dropWhile_cons_of_neg hq]

theorem rdropWhile_rdropWhile_of_imp {α : Type} (p q : α → Bool)
    (himp : ∀ c, q c = true → p c = true) (l : List α) :
    List.rdropWhile p (List.rdropWhile q l) = List.rdropWhile p l := by
  unfold List.rdropWhile
  rw [List.reverse_reverse, dropWhile_dropWhile_of_imp p q himp]

theorem rdropWhile_absorb_of_imp {α : Type} (p q : α → Bool)
    (himp : ∀ c, q c = true → p c = true) (l : List α) :
    List.rdropWhile q (List.rdropWhile p l) = List.rdropWhile p l := by
  unfold List.rdropWhile
  rw [List.reverse_reverse, dropWhile_absorb_of_imp p q himp]

theorem dropWhile_rdropWhile_comm {α : Type} (p q : α → Bool) (l : List α) :
    List.dropWhile p (List.rdropWhile q l) = List.rdropWhile q (List.dropWhile p l) := by
  induction l using List.reverseRecOn with
  | nil => rfl
  | append_singleton l' x ih =>
    by_cases hq : q x = true
    · rw [List.rdropWhile_concat_pos q l' x hq, ih]
      by_cases hnil : List.dropWhile p l' = []
      · rw [hnil, List.rdropWhile_nil]
        rw [List.dropWhile_append, hnil]
        simp only [List.isEmpty_nil, if_true]
        by_cases hp : p x = true
        · rw [List.dropWhile_cons_of_pos hp]
          simp
        · rw [List.dropWhile_cons_of_neg hp]
          rw [show ([x] : List α) = [] ++ [x] from rfl, List.rdropWhile_concat_pos q [] x hq]
          simp
      · rw [List.dropWhile_append]
        have : ¬(List.dropWhile p l').isEmpty = true := by
          simpa [List.isEmpty_iff] using hnil
        rw [if_neg this, List.rdropWhile_concat_pos q _ x hq]
    · rw [List.rdropWhile_concat_neg q l' x hq]
      by_cases hnil : List.dropWhile p l' = []
      · rw [List.dropWhile_append, hnil]
        simp only [List.isEmpty_nil, if_true]
        by_cases hp : p x = true
        · rw [List.dropWhile_cons_of_pos hp]
          simp
        · rw [List.dropWhile_cons_of_neg hp]
          rw [show ([x] : List α) = [] ++ [x] from rfl, List.rdropWhile_concat_neg q [] x hq]
      · rw [List.dropWhile_append]
        have hne : ¬(List.dropWhile p l').isEmpty = true := by
          simpa [List.isEmpty_iff] using hnil
        rw [if_neg hne, List.rdropWhile_concat_neg q _ x hq]

theorem rdropWhile_append_of_pos {α : Type} (q : α → Bool) (x suf : List α)
    (hsuf : ∀ c ∈ suf, q c = true) :
    List.rdropWhile q (x ++ suf) = List.rdropWhile q x := by
  unfold List.rdropWhile
  rw [List.reverse_append,
    List.dropWhile_append_of_pos (fun a ha => hsuf a (List.mem_reverse.mp ha))]

theorem normalizeName_eq_core (l : List Char) :
    normalizeName l = List.rdropWhile isDotWs (List.dropWhile isDotWs l) := by
  have himp : ∀ c, Char.isWhitespace c = true → isDotWs c = true := by
    intro c hc
    simp [isDotWs, hc]
  have h0 : normalizeName l =
      List.rdropWhile Char.isWhitespace (List.dropWhile Char.isWhitespace
        (List.rdropWhile isDotWs (List.dropWhile isDotWs
          (List.rdropWhile Char.isWhitespace (List.dropWhile Char.isWhitespace l))))) := by
    simp only [normalizeName, trimWs, List.rdropWhile]
  rw [h0]
  rw [dropWhile_rdropWhile_comm isDotWs Char.isWhitespace
    (List.dropWhile Char.isWhitespace l)]
  rw [dropWhile_dropWhile_of_imp isDotWs Char.isWhitespace himp l]
  rw [rdropWhile_rdropWhile_of_imp isDotWs Char.isWhitespace himp
    (List.dropWhile isDotWs l)]
  rw [dropWhile_rdropWhile_comm Char.isWhitespace isDotWs (List.dropWhile isDotWs l)]
  rw [dropWhile_absorb_of_imp isDotWs Char.isWhitespace himp l]
  rw [rdropWhile_absorb_of_imp isDotWs Char.isWhitespace himp
    (List.dropWhile isDotWs l)]

theorem normalizeName_idem (l : List Char) :
    normalizeName (normalizeName l) = normalizeName l := by
  rw [normalizeName_eq_core l, normalizeName_eq_core]
  rw [dropWhile_rdropWhile_comm isDotWs isDotWs (List.dropWhile isDotWs l)]
  rw [List.dropWhile_idempotent, List.rdropWhile_idempotent]

theorem normalizeName_affix (pre s suf : List Char)
    (hpre : ∀ c ∈ pre, isDotWs c = true) (hsuf : ∀ c ∈ suf, isDotWs c = true) :
    normalizeName (pre ++ s ++ suf) = normalizeName s := by
  rw [normalizeName_eq_core, normalizeName_eq_core]
  rw [List.append_assoc, List.dropWhile_append_of_pos hpre]
  rw [← dropWhile_rdropWhile_comm isDotWs isDotWs (s ++ suf)]
  rw [rdropWhile_append_of_pos isDotWs s suf hsuf]
  rw [dropWhile_rdropWhile_comm isDotWs isDotWs s]

/-- Claim C9: name normalization is idempotent, and two names differing only
by leading/trailing dots and whitespace normalize to the same string, hence
resolve to the same identity key. -/
theorem claim_normalize_idempotent_affix (s pre suf : List Char)
    (hpre : ∀ c ∈ pre, isDotWs c = true) (hsuf : ∀ c ∈ suf, isDotWs c = true) :
    normalizeName (normalizeName s) = normalizeName s ∧
    normalizeName (pre ++ s ++ suf) = normalizeName s ∧
    ∀ dpid clientId : List Char,
      identityKey dpid clientId (pre ++ s ++ suf) = identityKey dpid clientId s := by
  refine ⟨normalizeName_idem s, normalizeName_affix pre s suf hpre hsuf, ?_⟩
  intro dpid clientId
  unfold identityKey
  rw [normalizeName_affix pre s suf hpre hsuf]

/-- Witness for C9 at a concrete name and concrete dot/whitespace affixes. -/
theorem claim_normalize_idempotent_affix_witness :
    normalizeName (normalizeName "Mr. A. Holder".toList) = normalizeName "Mr. A. Holder".toList ∧
    normalizeName (" ..".toList ++ "Mr. A. Holder".toList ++ ". ".toList) =
      normalizeName "Mr. A. Holder".toList ∧
    ∀ dpid clientId : List Char,
      identityKey dpid clientId (" ..".toList ++ "Mr. A. Holder".toList ++ ". ".toList) =
        identityKey dpid clientId "Mr. A. Holder".toList :=
  claim_normalize_idempotent_affix "Mr. A. Holder".toList " ..".toList ". ".toList
    (by decide) (by decide)

/-- Claim C10: during file ingest, every row whose NAME cell is empty or
missing is dropped entirely from the parse result — dropping those raw rows
first changes nothing, and every surviving parsed row has a non-empty
name — even when the dropped rows' other cells contain data. -/
theorem claim_empty_name_rows_dropped (raws : List RawRow) :
    parseFileRows raws =
      parseFileRows (raws.filter (fun rr => !(jsOrEmpty rr.name).isEmpty)) ∧
    ∀ r ∈ parseFileRows raws, r.name ≠ [] := by
  have key : ∀ l : List RawRow,
      parseFileRows l =
        (l.filter (fun rr => !(jsOrEmpty rr.name).isEmpty)).map mapRawRow := by
    intro l
    unfold parseFileRows
    rw [List.filter_map]
    rfl
  constructor
  · rw [key raws, key (raws.filter (fun rr => !(jsOrEmpty rr.name).isEmpty))]
    rw [List.filter_filter]
    simp
  · intro r hr
    unfold parseFileRows at hr
    have hmem := List.mem_filter.mp hr
    simpa [List.isEmpty_iff] using hmem.2

/-- Witness for C10 at the concrete raw-row list. -/
theorem claim_empty_name_rows_dropped_witness :
    parseFileRows c10Raws =
      parseFileRows (c10Raws.filter (fun rr => !(jsOrEmpty rr.name).isEmpty)) ∧
    ∀ r ∈ parseFileRows c10Raws, r.name ≠ [] :=
  claim_empty_name_rows_dropped c10Raws

theorem digitToChar_toNat (n : Nat) (h : n < 10) : (digitToChar n).toNat = 48 + n := by
  interval_cases n <;> decide

theorem digitToChar_range (n : Nat) (h : n < 10) :
    48 ≤ (digitToChar n).toNat ∧ (digitToChar n).toNat ≤ 57 := by
  rw [digitToChar_toNat n h]
  omega

theorem natDigits_digit (n : Nat) :
    ∀ c ∈ natDigits n, 48 ≤ c.toNat ∧ c.toNat ≤ 57 := by
  induction n using Nat.strong_induction_on with
  | _ n ih =>
    rw [natDigits]
    by_cases h : n < 10
    · rw [if_pos h]
      intro c hc
      rw [List.mem_singleton] at hc
      subst hc
      exact digitToChar_range n h
    · rw [if_neg h]
      intro c hc
      rcases List.mem_append.mp hc with hc | hc
      · exact ih (n / 10) (Nat.div_lt_self (by omega) (by norm_num)) c hc
      · rw [List.mem_singleton] at hc
        subst hc
        exact digitToChar_range _ (Nat.mod_lt n (by norm_num))

theorem natDigits_ne_nil (n : Nat) : natDigits n ≠ [] := by
  rw [natDigits]
  by_cases h : n < 10
  · rw [if_pos h]
    simp
  · rw [if_neg h]
    simp

theorem parseDigits_append_single (l : List Char) (c : Char) :
    parseDigits (l ++ [c]) = parseDigits l * 10 + (c.toNat - 48) := by
  unfold parseDigits
  rw [List.foldl_append]
  rfl

theorem parseDigits_natDigits (n : Nat) : parseDigits (natDigits n) = n := by
  induction n using Nat.strong_induction_on with
  | _ n ih =>
    rw [natDigits]
    by_cases h : n < 10
    · rw [if_pos h]
      show parseDigits ([] ++ [digitToChar n]) = n
      rw [parseDigits_append_single, digitToChar_toNat n h]
      show 0 * 10 + (48 + n - 48) = n
      omega
    · rw [if_neg h]
      rw [parseDigits_append_single,
        ih (n / 10) (Nat.div_lt_self (by omega) (by norm_num)),
        digitToChar_toNat (n % 10) (Nat.mod_lt n (by norm_num))]
      omega

theorem jsNumber_natDigits (n : Nat) : jsNumber (natDigits n) = some n := by
  unfold jsNumber
  rw [if_neg (natDigits_ne_nil n)]
  have hall : (natDigits n).all (fun c => 48 ≤ c.toNat && c.toNat ≤ 57) = true := by
    rw [List.all_eq_true]
    intro c hc
    have := natDigits_digit n c hc
    simp only [Bool.and_eq_true, decide_eq_true_eq]
    omega
  rw [if_pos hall, parseDigits_natDigits]

theorem natDigits_no_dash (n : Nat) : ∀ c ∈ natDigits n, c ≠ '-' := by
  intro c hc heq
  have := natDigits_digit n c hc
  rw [heq] at this
  simp at this

theorem natDigits_no_at (n : Nat) : ∀ c ∈ natDigits n, c ≠ '@' := by
  intro c hc heq
  have := natDigits_digit n c hc
  rw [heq] at this
  simp at this

theorem splitOnAtAt_no_at (l : List Char) (hl : ∀ c ∈ l, c ≠ '@') :
    splitOnAtAt l = [l] := by
  induction l with
  | nil => rfl
  | cons c tl ih =>
    cases tl with
    | nil => rfl
    | cons c2 rest =>
      rw [splitOnAtAt]
      rw [if_neg (fun hand => hl c (by simp) hand.1)]
      rw [ih (fun x hx => hl x (by simp [hx]))]

theorem splitOnAtAt_append (a b : List Char) (ha : ∀ c ∈ a, c ≠ '@') :
    splitOnAtAt (a ++ '@' :: '@' :: b) = a :: splitOnAtAt b := by
  induction a with
  | nil =>
    rw [List.nil_append, splitOnAtAt, if_pos ⟨rfl, rfl⟩]
  | cons c tl ih =>
    cases tl with
    | nil =>
      show splitOnAtAt (c :: '@' :: '@' :: b) = [c] :: splitOnAtAt b
      rw [splitOnAtAt]
      rw [if_neg (fun hand => ha c (by simp) hand.1)]
      rw [show splitOnAtAt ('@' :: '@' :: b) = [] :: splitOnAtAt b from by
        rw [splitOnAtAt, if_pos ⟨rfl, rfl⟩]]
    | cons c2 rest =>
      show splitOnAtAt (c :: c2 :: (rest ++ '@' :: '@' :: b)) =
        (c :: c2 :: rest) :: splitOnAtAt b
      rw [splitOnAtAt]
      rw [if_neg (fun hand => ha c (by simp) hand.1)]
      rw [show c2 :: (rest ++ '@' :: '@' :: b) = (c2 :: rest) ++ '@' :: '@' :: b from rfl]
      rw [ih (fun x hx => ha x (List.mem_cons_of_mem c hx))]

theorem splitOnDash_no_dash (l : List Char) (hl : ∀ c ∈ l, c ≠ '-') :
    splitOnDash l = [l] := by
  induction l with
  | nil => rfl
  | cons c tl ih =>
    rw [splitOnDash]
    rw [if_neg (hl c (by simp))]
    rw [ih (fun x hx => hl x (by simp [hx]))]

theorem splitOnDash_append (a b : List Char) (ha : ∀ c ∈ a, c ≠ '-') :
    splitOnDash (a ++ '-' :: b) = a :: splitOnDash b := by
  induction a with
  | nil =>
    rw [List.nil_append, splitOnDash, if_pos rfl]
  | cons c tl ih =>
    rw [List.cons_append, splitOnDash]
    rw [if_neg (ha c (by simp))]
    rw [ih (fun x hx => ha x (by simp [hx]))]

theorem splitOnAtAt_encodeDateKey (base : List Char) (i p : Nat)
    (hat : ∀ c ∈ base, c ≠ '@') :
    splitOnAtAt (encodeDateKey base i p) = [base, natDigits i ++ '-' :: natDigits p] := by
  unfold encodeDateKey
  rw [splitOnAtAt_append base _ hat]
  rw [splitOnAtAt_no_at _ ?hsub]
  case hsub =>
    intro c hc
    rcases List.mem_append.mp hc with hc | hc
    · exact natDigits_no_at i c hc
    · rcases List.mem_cons.mp hc with hc | hc
      · rw [hc]; decide
      · exact natDigits_no_at p c hc

/-- Claim C8: the snapshot-column key encoding is reversible — decoding an
encoded key recovers the base date, file index and position — distinct
file indices (or positions) give distinct keys for the same calendar date,
and two same-date keys from different files coexist in one holding record
without overwriting each other. -/
theorem claim_key_codec (base : List Char) (i p j q : Nat)
    (hbase : base ≠ []) (hat : ∀ c ∈ base, c ≠ '@')
    (hp : p = 1 ∨ p = 2) (hq : q = 1 ∨ q = 2) :
    getBaseDateC (encodeDateKey base i p) = base ∧
    getFileIndexFromDateKeyC (encodeDateKey base i p) = some i ∧
    getSnapshotPosFromDateKeyC (encodeDateKey base i p) = some p ∧
    ((i, p) ≠ (j, q) → encodeDateKey base i p ≠ encodeDateKey base j q) ∧
    alGet c8Record.dateValues ⟨100, 0, 2⟩ = some ⟨11, 1, 0⟩ ∧
    alGet c8Record.dateValues ⟨100, 1, 2⟩ = some ⟨21, 2, 0⟩ := by
  have hmeta : ∀ m : Nat, splitOnDash (natDigits m ++ '-' :: natDigits p) =
      [natDigits m, natDigits p] := by
    intro m
    rw [splitOnDash_append _ _ (natDigits_no_dash m),
      splitOnDash_no_dash _ (natDigits_no_dash p)]
  have hfi : ∀ m : Nat, getFileIndexFromDateKeyC (encodeDateKey base m p) = some m := by
    intro m
    unfold getFileIndexFromDateKeyC
    rw [splitOnAtAt_encodeDateKey base m p hat]
    show jsNumber ((splitOnDash (natDigits m ++ '-' :: natDigits p)).headD []) = some m
    rw [hmeta m]
    exact jsNumber_natDigits m
  have hpos : getSnapshotPosFromDateKeyC (encodeDateKey base i p) = some p := by
    unfold getSnapshotPosFromDateKeyC
    rw [splitOnAtAt_encodeDateKey base i p hat]
    show (match (splitOnDash (natDigits i ++ '-' :: natDigits p)).get? 1 with
      | some s => jsNumber s
      | none => none) = some p
    rw [hmeta i]
    exact jsNumber_natDigits p
  refine ⟨?_, hfi i, hpos, ?_, by decide, by decide⟩
  · unfold getBaseDateC
    rw [splitOnAtAt_encodeDateKey base i p hat]
    show (if base = [] then encodeDateKey base i p else base) = base
    rw [if_neg hbase]
  · intro hne heq
    apply hne
    have h1 : getFileIndexFromDateKeyC (encodeDateKey base i p) =
        getFileIndexFromDateKeyC (encodeDateKey base j q) := by rw [heq]
    have h2 : getSnapshotPosFromDateKeyC (encodeDateKey base i p) =
        getSnapshotPosFromDateKeyC (encodeDateKey base j q) := by rw [heq]
    have hfj : getFileIndexFromDateKeyC (encodeDateKey base j q) = some j := by
      have hmetaq : splitOnDash (natDigits j ++ '-' :: natDigits q) =
          [natDigits j, natDigits q] := by
        rw [splitOnDash_append _ _ (natDigits_no_dash j),
          splitOnDash_no_dash _ (natDigits_no_dash q)]
      unfold getFileIndexFromDateKeyC
      rw [splitOnAtAt_encodeDateKey base j q hat]
      show jsNumber ((splitOnDash (natDigits j ++ '-' :: natDigits q)).headD []) = some j
      rw [hmetaq]
      exact jsNumber_natDigits j
    have hpq : getSnapshotPosFromDateKeyC (encodeDateKey base j q) = some q := by
      have hmetaq : splitOnDash (natDigits j ++ '-' :: natDigits q) =
          [natDigits j, natDigits q] := by
        rw [splitOnDash_append _ _ (natDigits_no_dash j),
          splitOnDash_no_dash _ (natDigits_no_dash q)]
      unfold getSnapshotPosFromDateKeyC
      rw [splitOnAtAt_encodeDateKey base j q hat]
      show (match (splitOnDash (natDigits j ++ '-' :: natDigits q)).get? 1 with
        | some s => jsNumber s
        | none => none) = some q
      rw [hmetaq]
      exact jsNumber_natDigits q
    rw [hfi i, hfj] at h1
    rw [hpos, hpq] at h2
    simp at h1 h2
    rw [h1, h2]

/-- Witness for C8 at the concrete date string `"03-12-2025"`, file indices
0 and 1, position 2. -/
theorem claim_key_codec_witness :
    getBaseDateC (encodeDateKey "03-12-2025".toList 0 2) = "03-12-2025".toList ∧
    getFileIndexFromDateKeyC (encodeDateKey "03-12-2025".toList 0 2) = some 0 ∧
    getSnapshotPosFromDateKeyC (encodeDateKey "03-12-2025".toList 0 2) = some 2 ∧
    (((0 : Nat), (2 : Nat)) ≠ ((1 : Nat), (2 : Nat)) →
      encodeDateKey "03-12-2025".toList 0 2 ≠ encodeDateKey "03-12-2025".toList 1 2) ∧
    alGet c8Record.dateValues ⟨100, 0, 2⟩ = some ⟨11, 1, 0⟩ ∧
    alGet c8Record.dateValues ⟨100, 1, 2⟩ = some ⟨21, 2, 0⟩ :=
  claim_key_codec "03-12-2025".toList 0 2 1 2 (by decide) (by decide)
    (Or.inr rfl) (Or.inr rfl)

theorem alGet_cons {κ α : Type} [DecidableEq κ] (e : κ × α) (m : List (κ × α)) (k : κ) :
    alGet (e :: m) k = if e.1 = k then some e.2 else alGet m k := by
  unfold alGet
  by_cases h : e.1 = k
  · rw [List.find?_cons_of_pos _ (by simp [h]), if_pos h]
    rfl
  · rw [List.find?_cons_of_neg _ (by simp [h]), if_neg h]

theorem alGet_eq_none_of_not_mem {κ α : Type} [DecidableEq κ]
    (m : List (κ × α)) (k : κ) (hk : k ∉ m.map (·.1)) : alGet m k = none := by
  induction m with
  | nil => rfl
  | cons e tl ih =>
    rw [alGet_cons]
    rw [List.map_cons, List.mem_cons] at hk
    push_neg at hk
    rw [if_neg (fun he => hk.1 he.symm)]
    exact ih hk.2

theorem alGet_append_single {κ α : Type} [DecidableEq κ]
    (m : List (κ × α)) (e : κ × α) (k : κ) :
    alGet (m ++ [e]) k =
      match alGet m k with
      | some v => some v
      | none => if e.1 = k then some e.2 else none := by
  induction m with
  | nil =>
    rw [List.nil_append, alGet_cons,
      show alGet ([] : List (κ × α)) k = none from rfl]
  | cons f tl ih =>
    rw [List.cons_append, alGet_cons, alGet_cons]
    by_cases h : f.1 = k
    · rw [if_pos h, if_pos h]
    · rw [if_neg h, if_neg h, ih]

theorem alGet_map_set_self {κ α : Type} [DecidableEq κ] (m : List (κ × α)) (k : κ) (a : α)
    (h : (alGet m k).isSome = true) :
    alGet (m.map (fun e => if e.1 = k then (k, a) else e)) k = some a := by
  induction m with
  | nil => simp [alGet] at h
  | cons e tl ih =>
    rw [List.map_cons]
    by_cases he : e.1 = k
    · rw [if_pos he, alGet_cons, if_pos rfl]
    · rw [if_neg he, alGet_cons, if_neg he]
      apply ih
      rw [alGet_cons, if_neg he] at h
      exact h

theorem alGet_map_set_ne {κ α : Type} [DecidableEq κ] (m : List (κ × α)) (k : κ) (a : α)
    (k' : κ) (hne : k' ≠ k) :
    alGet (m.map (fun e => if e.1 = k then (k, a) else e)) k' = alGet m k' := by
  induction m with
  | nil => rfl
  | cons e tl ih =>
    rw [List.map_cons]
    by_cases he : e.1 = k
    · rw [if_pos he, alGet_cons, alGet_cons, if_neg (fun hh => hne hh.symm),
        if_neg (fun hh : e.1 = k' => hne (he ▸ hh).symm), ih]
    · rw [if_neg he, alGet_cons, alGet_cons, ih]

theorem alGet_alSet_self {κ α : Type} [DecidableEq κ] (m : List (κ × α)) (k : κ) (a : α) :
    alGet (alSet m k a) k = some a := by
  unfold alSet
  by_cases h : (alGet m k).isSome
  · rw [if_pos h]
    exact alGet_map_set_self m k a h
  · rw [if_neg h, alGet_append_single]
    rw [Option.not_isSome_iff_eq_none] at h
    rw [h, if_pos rfl]

theorem alGet_alSet_ne {κ α : Type} [DecidableEq κ] (m : List (κ × α)) (k : κ) (a : α)
    (k' : κ) (hne : k' ≠ k) :
    alGet (alSet m k a) k' = alGet m k' := by
  unfold alSet
  by_cases h : (alGet m k).isSome
  · rw [if_pos h]
    exact alGet_map_set_ne m k a k' hne
  · rw [if_neg h, alGet_append_single]
    cases hm : alGet m k' with
    | some v => rfl
    | none =>
      show (if k = k' then some a else none) = none
      rw [if_neg (fun hh => hne hh.symm)]

theorem alGet_mergeDateValues (inc : List (SKey × SnapshotValue)) :
    ∀ (acc : List (SKey × SnapshotValue)) (k : SKey),
      (inc.map (·.1)).Nodup →
      alGet (mergeDateValues acc inc) k =
        match alGet acc k, alGet inc k with
        | some v1, some v2 =>
          some ⟨v1.value + v2.value, v1.bought + v2.bought, v1.sold + v2.sold⟩
        | some v1, none => some v1
        | none, some v2 => some v2
        | none, none => none := by
  induction inc with
  | nil =>
    intro acc k _
    rw [show alGet ([] : List (SKey × SnapshotValue)) k = none from rfl]
    rw [show mergeDateValues acc [] = acc from rfl]
    cases halt : alGet acc k <;> rfl
  | cons e rest ih =>
    intro acc k hnd
    rw [List.map_cons, List.nodup_cons] at hnd
    have hstep : mergeDateValues acc (e :: rest) =
        mergeDateValues
          (match alGet acc e.1 with
           | some dv =>
             alSet acc e.1 ⟨dv.value + e.2.value, dv.bought + e.2.bought, dv.sold + e.2.sold⟩
           | none => acc ++ [e]) rest := rfl
    rw [hstep, ih _ k hnd.2, alGet_cons]
    by_cases hk : e.1 = k
    · subst hk
      rw [if_pos rfl]
      have hrest : alGet rest e.1 = none := alGet_eq_none_of_not_mem rest e.1 hnd.1
      rw [hrest]
      cases hacc : alGet acc e.1 with
      | some dv =>
        rw [alGet_alSet_self]
      | none =>
        rw [alGet_append_single, hacc, if_pos rfl]
    · rw [if_neg hk]
      cases hacc : alGet acc e.1 with
      | some dv =>
        rw [alGet_alSet_ne _ _ _ k (fun hh => hk hh.symm)]
      | none =>
        rw [alGet_append_single]
        cases hacck : alGet acc k with
        | some v => rfl
        | none =>
          rw [if_neg hk]

theorem combineHoldings_pair (h1 h2 : Holding)
    (hid : identityKey h2.dpid h2.clientId h2.name =
      identityKey h1.dpid h1.clientId h1.name) :
    combineHoldings [h1, h2] =
      [{ id := identityKey h1.dpid h1.clientId h1.name, dpid := h1.dpid,
         clientId := h1.clientId, name := normalizeName h1.name,
         category := if h1.category = [] ∧ h2.category ≠ [] then h2.category else h1.category,
         dateValues := mergeDateValues h1.dateValues h2.dateValues }] := by
  unfold combineHoldings
  show ((combineStep (combineStep [] h1) h2).map (·.2)) = _
  have hstep1 : combineStep [] h1 =
      [(identityKey h1.dpid h1.clientId h1.name,
        { h1 with id := identityKey h1.dpid h1.clientId h1.name,
                  name := normalizeName h1.name })] := rfl
  rw [hstep1]
  unfold combineStep
  rw [hid]
  dsimp only
  rw [alGet_cons, if_pos rfl]
  unfold alModify
  rw [List.map_cons]
  rw [if_pos rfl]
  by_cases hc : h1.category = [] ∧ h2.category ≠ []
  · rw [if_pos hc]
    simp only [List.map_cons, List.map_nil]
    rw [if_pos hc]
  · rw [if_neg hc]
    simp only [List.map_cons, List.map_nil]
    rw [if_neg hc]

/-- Counterexample to C5 as stated: two raw rows of the same file that
normalize to the same identity are not merged additively — the consolidated
record stores the second row's position-1 value 20, not the sum 30. -/
theorem claim_merge_sums_counterexample :
    ((combineHoldings (consolidateData [c5File]).1).map
      (fun m => alGet m.dateValues ⟨100, 0, 1⟩) = [some ⟨20, 0, 0⟩]) ∧
    ¬ ((combineHoldings (consolidateData [c5File]).1).map
      (fun m => alGet m.dateValues ⟨100, 0, 1⟩) = [some ⟨30, 0, 0⟩]) := by
  decide

/-- Claim C5 (amended): records that reach `combineHoldings` as distinct
holding records and normalize to the same identity are merged into one
record whose snapshot sets are unioned with `value`/`bought`/`sold` summed
on key collision; but two raw rows with identical raw identity strings in
the same file are collapsed by last-write-wins during per-file
consolidation (second conjunct shows the stored value is the second row's
20, not a sum). -/
theorem claim_merge_sums_amended (h1 h2 : Holding)
    (hid : identityKey h2.dpid h2.clientId h2.name =
      identityKey h1.dpid h1.clientId h1.name)
    (hnd : (h2.dateValues.map (·.1)).Nodup) (k : SKey) :
    (∃ m : Holding, combineHoldings [h1, h2] = [m] ∧
      alGet m.dateValues k =
        (match alGet h1.dateValues k, alGet h2.dateValues k with
         | some v1, some v2 =>
           some ⟨v1.value + v2.value, v1.bought + v2.bought, v1.sold + v2.sold⟩
         | some v1, none => some v1
         | none, some v2 => some v2
         | none, none => none)) ∧
    ((combineHoldings (consolidateData [c5File]).1).map
      (fun m => alGet m.dateValues ⟨100, 0, 1⟩) = [some ⟨20, 0, 0⟩]) := by
  refine ⟨⟨_, combineHoldings_pair h1 h2 hid, ?_⟩, by decide⟩
  exact alGet_mergeDateValues h2.dateValues h1.dateValues k hnd

/-- Witness for the amended C5 at concrete holdings and key. -/
theorem claim_merge_sums_amended_witness :
    (∃ m : Holding, combineHoldings [c5H1, c5H2] = [m] ∧
      alGet m.dateValues ⟨100, 0, 1⟩ =
        (match alGet c5H1.dateValues ⟨100, 0, 1⟩, alGet c5H2.dateValues ⟨100, 0, 1⟩ with
         | some v1, some v2 =>
           some ⟨v1.value + v2.value, v1.bought + v2.bought, v1.sold + v2.sold⟩
         | some v1, none => some v1
         | none, some v2 => some v2
         | none, none => none)) ∧
    ((combineHoldings (consolidateData [c5File]).1).map
      (fun m => alGet m.dateValues ⟨100, 0, 1⟩) = [some ⟨20, 0, 0⟩]) :=
  claim_merge_sums_amended c5H1 c5H2 (by decide) (by decide) ⟨100, 0, 1⟩

/-- Counterexample to C6 as stated: with categories `"A"` then `"B"` on the
same raw identity in one file, the consolidated category is `"B"` — a later
non-empty category overwrote the already-set `"A"`. -/
theorem claim_category_first_wins_counterexample :
    ((combineHoldings (consolidateData [c6File]).1).map (·.category) = ["B".toList]) ∧
    "B".toList ≠ "A".toList := by
  decide

/-- Claim C6 (amended): in the cross-record merge of `combineHoldings` the
first non-empty category wins and a later non-empty value never overwrites
an already-set category; but inside per-file consolidation a later row with
the same raw identity string overwrites the category (last non-empty wins,
second conjunct). -/
theorem claim_category_amended (h1 h2 : Holding)
    (hid : identityKey h2.dpid h2.clientId h2.name =
      identityKey h1.dpid h1.clientId h1.name) :
    (∃ m : Holding, combineHoldings [h1, h2] = [m] ∧
      m.category =
        (if h1.category = [] ∧ h2.category ≠ [] then h2.category else h1.category)) ∧
    ((combineHoldings (consolidateData [c6File]).1).map (·.category) = ["B".toList]) :=
  ⟨⟨_, combineHoldings_pair h1 h2 hid, rfl⟩, by decide⟩

/-- Witness for the amended C6 at concrete holdings. -/
theorem claim_category_amended_witness :
    (∃ m : Holding, combineHoldings [c6H1, c6H2] = [m] ∧
      m.category =
        (if c6H1.category = [] ∧ c6H2.category ≠ [] then c6H2.category else c6H1.category)) ∧
    ((combineHoldings (consolidateData [c6File]).1).map (·.category) = ["B".toList]) :=
  claim_category_amended c6H1 c6H2 (by decide)

theorem deltaLoop_eq_claimedFrom (s e : Nat) (m : EndMode) (l : List DVPair) :
    ∀ (i : Nat) (acc : Int × Int),
      deltaLoop s e m i acc l =
        (acc.1 + claimedDeltaSumFrom s e m (·.bought) i l,
         acc.2 + claimedDeltaSumFrom s e m (·.sold) i l) := by
  induction l with
  | nil =>
    intro i acc
    show acc = (acc.1 + 0, acc.2 + 0)
    simp
  | cons p rest ih =>
    intro i acc
    obtain ⟨dv1, dv2⟩ := p
    rw [deltaLoop.eq_def, claimedDeltaSumFrom, claimedDeltaSumFrom]
    dsimp only
    rw [ih (i + 1) _]
    by_cases hi : s ≤ i ∧ i ≤ e
    · cases dv2 with
      | some v =>
        by_cases hcond : i < e ∨ (i = e ∧ m = EndMode.pos2)
        · have hcond2 : s ≤ i ∧ i ≤ e ∧ (i < e ∨ m = EndMode.pos2) := by
            refine ⟨hi.1, hi.2, ?_⟩
            rcases hcond with h | h
            · exact Or.inl h
            · exact Or.inr h.2
          simp only [if_pos hi, if_pos hcond, if_pos hcond2]
          rw [Prod.mk.injEq]
          constructor <;> dsimp only <;> omega
        · have hcond2 : ¬(s ≤ i ∧ i ≤ e ∧ (i < e ∨ m = EndMode.pos2)) := by
            rintro ⟨-, hie, hor | hm⟩
            · exact hcond (Or.inl hor)
            · exact hcond (Or.inr ⟨by omega, hm⟩)
          simp only [if_pos hi, if_neg hcond, if_neg hcond2]
          rw [Prod.mk.injEq]
          constructor <;> dsimp only <;> omega
      | none =>
        by_cases hcond2 : s ≤ i ∧ i ≤ e ∧ (i < e ∨ m = EndMode.pos2)
        · simp only [if_pos hi, if_pos hcond2]
          rw [Prod.mk.injEq]
          constructor <;> dsimp only <;> omega
        · simp only [if_pos hi, if_neg hcond2]
          rw [Prod.mk.injEq]
          constructor <;> dsimp only <;> omega
    · have hcond2 : ¬(s ≤ i ∧ i ≤ e ∧ (i < e ∨ m = EndMode.pos2)) := by
        rintro ⟨hsi, hie, -⟩
        exact hi ⟨hsi, hie⟩
      simp only [if_neg hi, if_neg hcond2]
      cases dv2 <;> (rw [Prod.mk.injEq]; constructor <;> dsimp only <;> omega)

/-- Claim C3: for every identity with in-range data, the reconciler's
bought/sold totals are exactly the sums of the second-key deltas of the
in-range groups from the start index through the end index inclusive,
except that the end group's second-key deltas are skipped when `endMode`
is `pos1`. -/
theorem claim_delta_accumulation (dates : List SKey) (lo hi : Nat) (h : Holding)
    (s : Nat × Int) (e : Nat × EndMode)
    (hstart : findStart (dvPairs (summaryPeriodGroups dates lo hi) h) = some s)
    (hend : findEnd (dvPairs (summaryPeriodGroups dates lo hi) h) = some e) :
    (rawSummaryRow (summaryPeriodGroups dates lo hi) h).bought =
      claimedDeltaSum (dvPairs (summaryPeriodGroups dates lo hi) h) s.1 e.1 e.2 (·.bought) ∧
    (rawSummaryRow (summaryPeriodGroups dates lo hi) h).sold =
      claimedDeltaSum (dvPairs (summaryPeriodGroups dates lo hi) h) s.1 e.1 e.2 (·.sold) := by
  unfold rawSummaryRow
  dsimp only
  rw [hstart, hend]
  dsimp only
  rw [deltaLoop_eq_claimedFrom]
  unfold claimedDeltaSum
  constructor <;> dsimp only <;> omega

/-- Witness for C3: range `[0, 125]` keeps groups 0 (both keys) and 1
(position-1 only); the end mode is `pos1`, so only group 0's deltas count. -/
theorem claim_delta_accumulation_witness :
    (rawSummaryRow (summaryPeriodGroups c3Dates 0 125) c3Holding).bought =
      claimedDeltaSum (dvPairs (summaryPeriodGroups c3Dates 0 125) c3Holding)
        (0, (50 : Int)).1 (1, EndMode.pos1).1 (1, EndMode.pos1).2 (·.bought) ∧
    (rawSummaryRow (summaryPeriodGroups c3Dates 0 125) c3Holding).sold =
      claimedDeltaSum (dvPairs (summaryPeriodGroups c3Dates 0 125) c3Holding)
        (0, (50 : Int)).1 (1, EndMode.pos1).1 (1, EndMode.pos1).2 (·.sold) :=
  claim_delta_accumulation c3Dates 0 125 c3Holding (0, 50) (1, EndMode.pos1)
    (by decide) (by decide)

theorem map_fileIndex_filterMap_sublist (f : FileGroup → Option SummaryGroup)
    (hf : ∀ g g', f g = some g' → g'.fileIndex = g.fileIndex) :
    ∀ gs : List FileGroup,
      ((gs.filterMap f).map (·.fileIndex)).Sublist (gs.map (·.fileIndex))
  | [] => List.Sublist.refl _
  | g :: gs => by
    rw [List.filterMap_cons]
    cases hfg : f g with
    | none =>
      rw [List.map_cons]
      exact (map_fileIndex_filterMap_sublist f hf gs).cons _
    | some g' =>
      rw [List.map_cons, List.map_cons, hf g g' hfg]
      exact (map_fileIndex_filterMap_sublist f hf gs).cons₂ _

theorem summaryPeriodGroups_fileIndex_sorted (dates : List SKey) (lo hi : Nat) :
    List.Sorted (· ≤ ·) ((summaryPeriodGroups dates lo hi).map (·.fileIndex)) := by
  unfold summaryPeriodGroups
  dsimp only
  refine List.Pairwise.sublist (map_fileIndex_filterMap_sublist _ ?_ (fileGroupsAsc dates)) ?_
  · intro g g' hfg
    split at hfg
    · exact absurd hfg (by simp)
    · cases hfg
      rfl
  unfold fileGroupsAsc
  by_cases hd : dates = []
  · rw [if_pos hd]
    simp
  · rw [if_neg hd]
    dsimp only
    rw [List.map_map]
    rw [show ((fun (g : FileGroup) => g.fileIndex) ∘ (fun fi =>
        ({ fileIndex := fi,
           dateKeys := List.insertionSort baseLe ((alGet (groupByFileIndex dates) fi).getD []) }
          : FileGroup))) = fun fi => fi from rfl]
    rw [List.map_id']
    exact List.sorted_insertionSort _ _

theorem buildColumns_pos2_mem (fs : List ParsedFile) :
    ∀ (j : Nat) (k : SKey), k ∈ buildColumns j fs → k.pos = 2 →
      ∃ idx f', fs.get? idx = some f' ∧ k.fi = j + idx ∧ k.base = f'.secondDate := by
  induction fs with
  | nil =>
    intro j k hk
    simp [buildColumns] at hk
  | cons f fs ih =>
    intro j k hk hpos
    rw [buildColumns] at hk
    rcases List.mem_cons.mp hk with hk | hk
    · subst hk
      simp at hpos
    · rcases List.mem_cons.mp hk with hk | hk
      · subst hk
        exact ⟨0, f, rfl, by simp, rfl⟩
      · obtain ⟨idx, f', hget, hfi, hbase⟩ := ih (j + 1) k hk hpos
        exact ⟨idx + 1, f', by simpa using hget, by omega, hbase⟩

theorem consolidateData_pos2_chronological (files : List ParsedFile) (k1 k2 : SKey)
    (hk1 : k1 ∈ (consolidateData files).2) (hk2 : k2 ∈ (consolidateData files).2)
    (hp1 : k1.pos = 2) (hp2 : k2.pos = 2) (hfi : k1.fi ≤ k2.fi) :
    k1.base ≤ k2.base := by
  unfold consolidateData at hk1 hk2
  by_cases hnil : files = []
  · rw [if_pos hnil] at hk1
    simp at hk1
  · rw [if_neg hnil] at hk1 hk2
    dsimp only at hk1 hk2
    have hperm := List.perm_insertionSort colLe (buildColumns 0 (List.insertionSort fileLe files))
    rw [hperm.mem_iff] at hk1 hk2
    obtain ⟨i1, f1, hg1, hfi1, hb1⟩ := buildColumns_pos2_mem _ 0 k1 hk1 hp1
    obtain ⟨i2, f2, hg2, hfi2, hb2⟩ := buildColumns_pos2_mem _ 0 k2 hk2 hp2
    have hsorted : List.Sorted fileLe (List.insertionSort fileLe files) :=
      List.sorted_insertionSort fileLe files
    rw [List.get?_eq_some] at hg1 hg2
    obtain ⟨hlt1, hget1⟩ := hg1
    obtain ⟨hlt2, hget2⟩ := hg2
    have hle : fileLe ((List.insertionSort fileLe files).get ⟨i1, hlt1⟩)
        ((List.insertionSort fileLe files).get ⟨i2, hlt2⟩) := by
      apply hsorted.rel_get_of_le
      show i1 ≤ i2
      omega
    rw [hget1, hget2] at hle
    rw [hb1, hb2]
    exact hle

theorem insertionSort_secondDate_perm_invariant (files1 files2 : List ParsedFile)
    (hperm : files1.Perm files2) (hnd : (files1.map (·.secondDate)).Nodup) :
    List.insertionSort fileLe files1 = List.insertionSort fileLe files2 := by
  have hs1 := List.sorted_insertionSort fileLe files1
  have hs2 := List.sorted_insertionSort fileLe files2
  have hp1 := List.perm_insertionSort fileLe files1
  have hp2 := List.perm_insertionSort fileLe files2
  have hp : (List.insertionSort fileLe files1).Perm (List.insertionSort fileLe files2) :=
    (hp1.trans hperm).trans hp2.symm
  have hnd1 : ((List.insertionSort fileLe files1).map (·.secondDate)).Nodup :=
    ((hp1.map (·.secondDate)).nodup_iff).mpr hnd
  have hnd2 : ((List.insertionSort fileLe files2).map (·.secondDate)).Nodup :=
    ((hp.map (·.secondDate)).nodup_iff).mp hnd1
  have hlt1 : List.Pairwise (fun a b : ParsedFile => a.secondDate < b.secondDate)
      (List.insertionSort fileLe files1) := by
    have hne := (List.pairwise_map).mp hnd1
    exact (hs1.and hne).imp (fun hab => Nat.lt_of_le_of_ne hab.1 hab.2)
  have hlt2 : List.Pairwise (fun a b : ParsedFile => a.secondDate < b.secondDate)
      (List.insertionSort fileLe files2) := by
    have hne := (List.pairwise_map).mp hnd2
    exact (hs2.and hne).imp (fun hab => Nat.lt_of_le_of_ne hab.1 hab.2)
  haveI : IsAntisymm ParsedFile (fun a b => a.secondDate < b.secondDate) :=
    ⟨fun a b hab hba => absurd (Nat.lt_trans hab hba) (Nat.lt_irrefl _)⟩
  exact List.eq_of_perm_of_sorted hp hlt1 hlt2

theorem consolidateData_perm_invariant (files1 files2 : List ParsedFile)
    (hperm : files1.Perm files2) (hnd : (files1.map (·.secondDate)).Nodup) :
    consolidateData files1 = consolidateData files2 := by
  unfold consolidateData
  by_cases h1 : files1 = []
  · subst h1
    have h2 : files2 = [] := hperm.symm.eq_nil
    rw [if_pos rfl, if_pos h2]
  · have h2 : files2 ≠ [] := by
      intro h
      rw [h] at hperm
      exact h1 hperm.eq_nil
    rw [if_neg h1, if_neg h2,
      insertionSort_secondDate_perm_invariant files1 files2 hperm hnd]

/-- Counterexample to C7 as stated: with overlapping file periods the walk
sequence's earliest-key dates are `[105, 100]` — the sequence is ordered by
each file's second snapshot date (via `fileIndex`), not by the date of the
earlier existing key. -/
theorem claim_walk_order_counterexample :
    ((summaryPeriodGroups (consolidateData [c7FileA, c7FileB]).2 0 1000).map
      summaryGroupEarliestBase = [105, 100]) ∧
    ¬ List.Sorted (· ≤ ·)
      ((summaryPeriodGroups (consolidateData [c7FileA, c7FileB]).2 0 1000).map
        summaryGroupEarliestBase) := by
  decide

/-- Claim C7 (amended): the walk sequence is ordered by `fileIndex`
ascending; `fileIndex` reflects the chronological order of the files'
second snapshot dates (so position-2 keys are chronological along the
walk); when second dates are distinct the assignment is independent of the
upload order; and the UI date-reversal toggle only reverses the
presentation list, never the ascending sequence the summary walks. -/
theorem claim_walk_order_amended (dates : List SKey) (lo hi : Nat)
    (files files2 : List ParsedFile) (k1 k2 : SKey)
    (hperm : files.Perm files2) (hnd : (files.map (·.secondDate)).Nodup)
    (hk1 : k1 ∈ (consolidateData files).2) (hk2 : k2 ∈ (consolidateData files).2)
    (hp1 : k1.pos = 2) (hp2 : k2.pos = 2) (hfi : k1.fi ≤ k2.fi) :
    List.Sorted (· ≤ ·) ((summaryPeriodGroups dates lo hi).map (·.fileIndex)) ∧
    k1.base ≤ k2.base ∧
    consolidateData files = consolidateData files2 ∧
    fileGroups dates DateOrder.desc = (fileGroups dates DateOrder.asc).reverse :=
  ⟨summaryPeriodGroups_fileIndex_sorted dates lo hi,
   consolidateData_pos2_chronological files k1 k2 hk1 hk2 hp1 hp2 hfi,
   consolidateData_perm_invariant files files2 hperm hnd,
   rfl⟩

/-- Witness for the amended C7 at the concrete two-file batch (upload order
swapped in `files2`). -/
theorem claim_walk_order_amended_witness :
    List.Sorted (· ≤ ·)
      ((summaryPeriodGroups [⟨100, 0, 1⟩, ⟨110, 0, 2⟩] 0 1000).map (·.fileIndex)) ∧
    (⟨108, 0, 2⟩ : SKey).base ≤ (⟨110, 1, 2⟩ : SKey).base ∧
    consolidateData [c7FileA, c7FileB] = consolidateData [c7FileB, c7FileA] ∧
    fileGroups [⟨100, 0, 1⟩, ⟨110, 0, 2⟩] DateOrder.desc =
      (fileGroups [⟨100, 0, 1⟩, ⟨110, 0, 2⟩] DateOrder.asc).reverse :=
  claim_walk_order_amended [⟨100, 0, 1⟩, ⟨110, 0, 2⟩] 0 1000
    [c7FileA, c7FileB] [c7FileB, c7FileA] ⟨108, 0, 2⟩ ⟨110, 1, 2⟩
    (by decide) (by decide) (by decide) (by decide) (by decide) (by decide) (by decide)

theorem findStart_none_forall (l : List DVPair) (h : findStart l = none) :
    ∀ p ∈ l, p = ((none : Option SnapshotValue), (none : Option SnapshotValue)) := by
  induction l with
  | nil => simp
  | cons p rest ih =>
    obtain ⟨dv1, dv2⟩ := p
    intro q hq
    cases dv1 with
    | some v => simp [findStart.eq_def] at h
    | none =>
      cases dv2 with
      | some v => simp [findStart.eq_def] at h
      | none =>
        rw [findStart] at h
        rcases List.mem_cons.mp hq with hq | hq
        · exact hq
        · simp at h
          exact ih h q hq

theorem findStart_some_prefix (l : List DVPair) (s : Nat × Int)
    (h : findStart l = some s) :
    ∀ j, j < s.1 → ∀ p, l.get? j = some p →
      p = ((none : Option SnapshotValue), (none : Option SnapshotValue)) := by
  induction l generalizing s with
  | nil => intro j hj p hp; simp at hp
  | cons q rest ih =>
    obtain ⟨dv1, dv2⟩ := q
    intro j hj p hp
    cases dv1 with
    | some v =>
      rw [findStart] at h
      cases h
      omega
    | none =>
      cases dv2 with
      | some v =>
        rw [findStart] at h
        cases h
        omega
      | none =>
        rw [findStart] at h
        cases hrest : findStart rest with
        | none => rw [hrest] at h; simp at h
        | some s' =>
          rw [hrest] at h
          cases h
          cases j with
          | zero => cases hp; rfl
          | succ j =>
            exact ih s' hrest j (by simpa using hj) p (by simpa using hp)

theorem findEnd_spec (l : List DVPair) (e : Nat × EndMode)
    (h : findEnd l = some e) :
    (e.2 = EndMode.pos1 → ∀ p, l.get? e.1 = some p → p.2 = none) ∧
    (∀ j p, l.get? j = some p → e.1 < j →
      p = ((none : Option SnapshotValue), (none : Option SnapshotValue))) := by
  induction l generalizing e with
  | nil => simp [findEnd] at h
  | cons q rest ih =>
    obtain ⟨dv1, dv2⟩ := q
    cases hrest : findEnd rest with
    | some e' =>
      obtain ⟨ih1, ih2⟩ := ih e' hrest
      have he : e = (e'.1 + 1, e'.2) := by
        cases dv2 <;> cases dv1 <;> simp [findEnd, hrest] at h <;> exact h.symm
      subst he
      constructor
      · intro hm p hp
        exact ih1 hm p (by simpa using hp)
      · intro j p hp hj
        cases j with
        | zero => exact absurd hj (by simp)
        | succ j =>
          refine ih2 j p (by simpa using hp) ?_
          dsimp only at hj
          omega
    | none =>
      have hall := findEnd_eq_none_forall rest hrest
      cases dv2 with
      | some v =>
        have he : e = (0, EndMode.pos2) := by
          cases dv1 <;> simp [findEnd, hrest] at h <;> exact h.symm
        subst he
        constructor
        · intro hm
          exact absurd hm (by simp)
        · intro j p hp hj
          cases j with
          | zero => exact absurd hj (by simp)
          | succ j => exact hall p (List.get?_mem (by simpa using hp))
      | none =>
        cases dv1 with
        | some v =>
          have he : e = (0, EndMode.pos1) := by
            simp [findEnd, hrest] at h
            exact h.symm
          subst he
          constructor
          · intro hm p hp
            cases hp
            rfl
          · intro j p hp hj
            cases j with
            | zero => exact absurd hj (by simp)
            | succ j => exact hall p (List.get?_mem (by simpa using hp))
        | none =>
          simp [findEnd, hrest] at h

theorem claimedFrom_eq_fullDeltaSum (s e : Nat) (m : EndMode)
    (sel : SnapshotValue → Int) :
    ∀ (l : List DVPair) (i : Nat),
      (∀ j p, l.get? j = some p →
        p ≠ ((none : Option SnapshotValue), (none : Option SnapshotValue)) →
        s ≤ i + j ∧ i + j ≤ e) →
      (m = EndMode.pos1 → ∀ j p, l.get? j = some p → i + j = e → p.2 = none) →
      claimedDeltaSumFrom s e m sel i l = fullDeltaSum sel l := by
  intro l
  induction l with
  | nil => intro i _ _; rfl
  | cons p rest ih =>
    intro i hbounds hend
    rw [claimedDeltaSumFrom, fullDeltaSum]
    rw [ih (i + 1) ?hb ?he]
    case hb =>
      intro j q hq hne
      have := hbounds (j + 1) q (by simpa using hq) hne
      omega
    case he =>
      intro hm j q hq hij
      exact hend hm (j + 1) q (by simpa using hq) (by omega)
    congr 1
    obtain ⟨dv1, dv2⟩ := p
    cases dv2 with
    | some v =>
      have hb := hbounds 0 (dv1, some v) rfl (by simp)
      have hcond : s ≤ i ∧ i ≤ e ∧ (i < e ∨ m = EndMode.pos2) := by
        refine ⟨by omega, by omega, ?_⟩
        cases m with
        | pos2 => exact Or.inr rfl
        | pos1 =>
          left
          have hne : i ≠ e := by
            intro hie
            have := hend rfl 0 (dv1, some v) rfl (by omega)
            simp at this
          omega
      rw [if_pos hcond]
    | none =>
      by_cases hcond : s ≤ i ∧ i ≤ e ∧ (i < e ∨ m = EndMode.pos2)
      · rw [if_pos hcond]
      · rw [if_neg hcond]

theorem fullDeltaSum_zero (sel : SnapshotValue → Int) (l : List DVPair)
    (hall : ∀ p ∈ l, p = ((none : Option SnapshotValue), (none : Option SnapshotValue))) :
    fullDeltaSum sel l = 0 := by
  induction l with
  | nil => rfl
  | cons p rest ih =>
    rw [fullDeltaSum, hall p (by simp), ih (fun q hq => hall q (by simp [hq]))]
    rfl

theorem findStart_of_all_empty (l : List DVPair)
    (hall : ∀ p ∈ l, p = ((none : Option SnapshotValue), (none : Option SnapshotValue))) :
    findStart l = none := by
  induction l with
  | nil => rfl
  | cons p rest ih =>
    have hp := hall p (by simp)
    subst hp
    rw [findStart, ih (fun q hq => hall q (by simp [hq]))]
    rfl

theorem rawSummaryRow_bought_sold_full (groups : List SummaryGroup) (h : Holding) :
    (rawSummaryRow groups h).bought = fullDeltaSum (fun v => v.bought) (dvPairs groups h) ∧
    (rawSummaryRow groups h).sold = fullDeltaSum (fun v => v.sold) (dvPairs groups h) := by
  unfold rawSummaryRow
  dsimp only
  cases hs : findStart (dvPairs groups h) with
  | none =>
    have hall := findStart_none_forall _ hs
    cases he : findEnd (dvPairs groups h) with
    | none =>
      constructor <;> simp [zeroSummaryRow, fullDeltaSum_zero _ _ hall]
    | some e =>
      constructor <;> simp [zeroSummaryRow, fullDeltaSum_zero _ _ hall]
  | some s =>
    cases he : findEnd (dvPairs groups h) with
    | none =>
      exfalso
      have hall := findEnd_eq_none_forall _ he
      rw [findStart_of_all_empty _ hall] at hs
      cases hs
    | some e =>
      obtain ⟨hend1, hend2⟩ := findEnd_spec _ e he
      have hsp := findStart_some_prefix _ s hs
      have hb : ∀ j p, (dvPairs groups h).get? j = some p →
          p ≠ ((none : Option SnapshotValue), (none : Option SnapshotValue)) →
          s.1 ≤ 0 + j ∧ 0 + j ≤ e.1 := by
        intro j p hj hne
        constructor
        · by_contra hlt
          exact hne (hsp j (by omega) p hj)
        · by_contra hlt
          exact hne (hend2 j p hj (by omega))
      have hecond : e.2 = EndMode.pos1 → ∀ j p, (dvPairs groups h).get? j = some p →
          0 + j = e.1 → p.2 = none := by
        intro hm j p hj hje
        apply hend1 hm p
        rw [show e.1 = j from by omega]
        exact hj
      dsimp only
      rw [deltaLoop_eq_claimedFrom]
      constructor
      · dsimp only
        rw [claimedFrom_eq_fullDeltaSum s.1 e.1 e.2 (fun x => x.bought)
          (dvPairs groups h) 0 hb hecond]
        omega
      · dsimp only
        rw [claimedFrom_eq_fullDeltaSum s.1 e.1 e.2 (fun x => x.sold)
          (dvPairs groups h) 0 hb hecond]
        omega

theorem fullDeltaSum_dvPairs (sel : SnapshotValue → Int) (h : Holding) :
    ∀ gs : List SummaryGroup,
      fullDeltaSum sel (dvPairs gs h) = groupDeltaSum sel h.dateValues gs
  | [] => rfl
  | g :: gs => by
    rw [show dvPairs (g :: gs) h =
      (dvOf h g.firstKey, dvOf h g.secondKey) :: dvPairs gs h from rfl]
    rw [fullDeltaSum, groupDeltaSum, fullDeltaSum_dvPairs sel h gs]
    rfl

theorem groupDeltaSum_empty (sel : SnapshotValue → Int) :
    ∀ gs : List SummaryGroup, groupDeltaSum sel [] gs = 0
  | [] => rfl
  | g :: gs => by
    rw [groupDeltaSum, groupDeltaSum_empty sel gs]
    cases g.secondKey <;> rfl

theorem groupDeltaSum_cons (sel : SnapshotValue → Int) (k0 : SKey) (v0 : SnapshotValue)
    (rest : List (SKey × SnapshotValue)) (hk0 : alGet rest k0 = none) :
    ∀ gs : List SummaryGroup,
      groupDeltaSum sel ((k0, v0) :: rest) gs =
        groupDeltaSum sel rest gs +
          sel v0 * ((gs.filter (fun g => g.secondKey = some k0)).length : Int)
  | [] => by
    rw [show groupDeltaSum sel ((k0, v0) :: rest) [] = 0 from rfl,
      show groupDeltaSum sel rest [] = 0 from rfl]
    simp
  | g :: gs => by
    rw [groupDeltaSum, groupDeltaSum, groupDeltaSum_cons sel k0 v0 rest hk0 gs,
      List.filter_cons]
    by_cases hsk : g.secondKey = some k0
    · rw [if_pos (by simp [hsk]), hsk]
      have hnew : (some k0).bind (alGet ((k0, v0) :: rest)) = some v0 := by
        show alGet ((k0, v0) :: rest) k0 = some v0
        rw [alGet_cons, if_pos rfl]
      have hold : (some k0).bind (alGet rest) = none := hk0
      rw [hnew, hold]
      dsimp only [List.length_cons]
      push_cast
      ring
    · rw [if_neg (by simp [hsk])]
      cases hg : g.secondKey with
      | none =>
        rw [show (none : Option SKey).bind (alGet ((k0, v0) :: rest)) = none from rfl,
          show (none : Option SKey).bind (alGet rest) = none from rfl]
        ring
      | some k =>
        have hkk0 : k ≠ k0 := by
          intro hk
          rw [hg, hk] at hsk
          exact hsk rfl
        have hstep : (some k).bind (alGet ((k0, v0) :: rest)) = (some k).bind (alGet rest) := by
          show alGet ((k0, v0) :: rest) k = alGet rest k
          rw [alGet_cons, if_neg (fun hh => hkk0 hh.symm)]
        rw [hstep]
        ring

theorem alGet_isSome_iff_mem_keys {κ α : Type} [DecidableEq κ]
    (m : List (κ × α)) (k : κ) :
    (alGet m k).isSome = true ↔ k ∈ m.map (·.1) := by
  induction m with
  | nil => simp [alGet]
  | cons e tl ih =>
    rw [alGet_cons, List.map_cons, List.mem_cons]
    by_cases h : e.1 = k
    · simp [h]
    · rw [if_neg h, ih]
      constructor
      · intro hm
        exact Or.inr hm
      · rintro (hm | hm)
        · exact absurd hm.symm h
        · exact hm

theorem groupByFold_spec (P : SKey → Prop) :
    ∀ (l : List SKey) (m : List (Nat × List SKey)),
      (∀ fi ks, alGet m fi = some ks → ∀ k ∈ ks, P k ∧ k.fi = fi) →
      (∀ k ∈ l, P k) →
      ∀ fi ks,
        alGet (l.foldl (fun m k =>
          match alGet m k.fi with
          | some ks => alSet m k.fi (ks ++ [k])
          | none => m ++ [(k.fi, [k])]) m) fi = some ks →
        ∀ k ∈ ks, P k ∧ k.fi = fi := by
  intro l
  induction l with
  | nil =>
    intro m hm _ fi ks hks
    exact hm fi ks hks
  | cons k0 l ih =>
    intro m hm hl fi ks hks
    rw [List.foldl_cons] at hks
    refine ih _ ?_ (fun k hk => hl k (by simp [hk])) fi ks hks
    intro fi' ks' hks' k hk
    cases hm0 : alGet m k0.fi with
    | some ks0 =>
      have hstep : (match alGet m k0.fi with
          | some ks => alSet m k0.fi (ks ++ [k0])
          | none => m ++ [(k0.fi, [k0])]) = alSet m k0.fi (ks0 ++ [k0]) := by
        rw [hm0]
      rw [hstep] at hks'
      by_cases hfi : fi' = k0.fi
      · subst hfi
        rw [alGet_alSet_self] at hks'
        cases hks'
        rcases List.mem_append.mp hk with hk | hk
        · exact hm _ _ hm0 k hk
        · rw [List.mem_singleton] at hk
          rw [hk]
          exact ⟨hl k0 (by simp), rfl⟩
      · rw [alGet_alSet_ne _ _ _ _ hfi] at hks'
        exact hm fi' ks' hks' k hk
    | none =>
      have hstep : (match alGet m k0.fi with
          | some ks => alSet m k0.fi (ks ++ [k0])
          | none => m ++ [(k0.fi, [k0])]) = m ++ [(k0.fi, [k0])] := by
        rw [hm0]
      rw [hstep] at hks'
      cases halt : alGet m fi' with
      | some ks2 =>
        have h2 : alGet (m ++ [(k0.fi, [k0])]) fi' = some ks2 := by
          rw [alGet_append_single, halt]
        rw [h2] at hks'
        cases hks'
        exact hm fi' _ halt k hk
      | none =>
        have h2 : alGet (m ++ [(k0.fi, [k0])]) fi'
            = if k0.fi = fi' then some [k0] else none := by
          rw [alGet_append_single, halt]
        rw [h2] at hks'
        by_cases hfi : k0.fi = fi'
        · rw [if_pos hfi] at hks'
          cases hks'
          rw [List.mem_singleton] at hk
          rw [hk]
          exact ⟨hl k0 (by simp), hfi⟩
        · rw [if_neg hfi] at hks'
          exact absurd hks' (by simp)

theorem groupByFold_mem :
    ∀ (l : List SKey) (m : List (Nat × List SKey)) (k : SKey),
      ((∃ ks, alGet m k.fi = some ks ∧ k ∈ ks) ∨ k ∈ l) →
      ∃ ks,
        alGet (l.foldl (fun m k =>
          match alGet m k.fi with
          | some ks => alSet m k.fi (ks ++ [k])
          | none => m ++ [(k.fi, [k])]) m) k.fi = some ks ∧ k ∈ ks := by
  intro l
  induction l with
  | nil =>
    intro m k hk
    rcases hk with hk | hk
    · exact hk
    · simp at hk
  | cons k0 l ih =>
    intro m k hk
    rw [List.foldl_cons]
    apply ih
    rcases hk with ⟨ks, hks, hmem⟩ | hk
    · left
      cases hm0 : alGet m k0.fi with
      | some ks0 =>
        show ∃ ks, alGet (alSet m k0.fi (ks0 ++ [k0])) k.fi = some ks ∧ k ∈ ks
        by_cases hfi : k.fi = k0.fi
        · rw [hfi, alGet_alSet_self]
          rw [hfi, hm0] at hks
          cases hks
          exact ⟨_, rfl, List.mem_append.mpr (Or.inl hmem)⟩
        · rw [alGet_alSet_ne _ _ _ _ hfi]
          exact ⟨ks, hks, hmem⟩
      | none =>
        show ∃ ks2, alGet (m ++ [(k0.fi, [k0])]) k.fi = some ks2 ∧ k ∈ ks2
        have h2 : alGet (m ++ [(k0.fi, [k0])]) k.fi = some ks := by
          rw [alGet_append_single, hks]
        rw [h2]
        exact ⟨ks, rfl, hmem⟩
    · rcases List.mem_cons.mp hk with hk | hk
      · subst hk
        left
        cases hm0 : alGet m k.fi with
        | some ks0 =>
          show ∃ ks, alGet (alSet m k.fi (ks0 ++ [k])) k.fi = some ks ∧ k ∈ ks
          rw [alGet_alSet_self]
          exact ⟨ks0 ++ [k], rfl, List.mem_append.mpr (Or.inr (by simp))⟩
        | none =>
          show ∃ ks, alGet (m ++ [(k.fi, [k])]) k.fi = some ks ∧ k ∈ ks
          have h2 : alGet (m ++ [(k.fi, [k])]) k.fi = some [k] := by
            rw [alGet_append_single, hm0]
            simp
          rw [h2]
          exact ⟨[k], rfl, by simp⟩
      · right
        exact hk

theorem alSet_map_fst {κ α : Type} [DecidableEq κ]
    (m : List (κ × α)) (k : κ) (a : α) (h : (alGet m k).isSome = true) :
    (alSet m k a).map (·.1) = m.map (·.1) := by
  rw [alSet, if_pos h, List.map_map]
  apply List.map_congr_left
  intro e _
  by_cases he : e.1 = k
  · simp [he]
  · simp [he]

theorem groupByFold_keys_nodup :
    ∀ (l : List SKey) (m : List (Nat × List SKey)),
      (m.map (·.1)).Nodup →
      ((l.foldl (fun m k =>
          match alGet m k.fi with
          | some ks => alSet m k.fi (ks ++ [k])
          | none => m ++ [(k.fi, [k])]) m).map (·.1)).Nodup := by
  intro l
  induction l with
  | nil =>
    intro m hm
    exact hm
  | cons k0 l ih =>
    intro m hm
    rw [List.foldl_cons]
    apply ih
    cases hm0 : alGet m k0.fi with
    | some ks0 =>
      show ((alSet m k0.fi (ks0 ++ [k0])).map (·.1)).Nodup
      rw [alSet_map_fst _ _ _ (by rw [hm0]; rfl)]
      exact hm
    | none =>
      show ((m ++ [(k0.fi, [k0])]).map (·.1)).Nodup
      rw [List.map_append]
      rw [List.nodup_append]
      refine ⟨hm, by simp, ?_⟩
      intro x hx
      simp only [List.map_cons, List.map_nil, List.mem_singleton] at *
      intro hx1
      rw [hx1] at hx
      have : (alGet m k0.fi).isSome = true := by
        rw [alGet_isSome_iff_mem_keys]
        exact hx
      rw [hm0] at this
      simp at this

theorem fileGroupsAsc_mem (dates : List SKey) (fg : FileGroup)
    (hfg : fg ∈ fileGroupsAsc dates) :
    ∀ k ∈ fg.dateKeys, k ∈ dates ∧ k.fi = fg.fileIndex := by
  intro k hk
  rw [fileGroupsAsc] at hfg
  by_cases hd : dates = []
  · rw [if_pos hd] at hfg
    simp at hfg
  · rw [if_neg hd] at hfg
    dsimp only at hfg
    obtain ⟨fi, _, hgf⟩ := List.mem_map.mp hfg
    rw [← hgf] at hk
    dsimp only at hk
    have hk2 : k ∈ (alGet (groupByFileIndex dates) fi).getD [] :=
      (List.Perm.mem_iff (List.perm_insertionSort baseLe _)).mp hk
    cases halt : alGet (groupByFileIndex dates) fi with
    | none =>
      rw [halt] at hk2
      simp at hk2
    | some ks =>
      rw [halt] at hk2
      have hspec := groupByFold_spec (· ∈ dates) dates []
        (by intro fi ks h; simp [alGet] at h)
        (fun k hk => hk) fi ks halt k hk2
      rw [← hgf]
      exact hspec

theorem fileGroupsAsc_exists (dates : List SKey) (k : SKey) (hk : k ∈ dates) :
    ∃ fg ∈ fileGroupsAsc dates, fg.fileIndex = k.fi ∧ k ∈ fg.dateKeys := by
  have hd : dates ≠ [] := by
    intro hd
    rw [hd] at hk
    simp at hk
  obtain ⟨ks, hks, hmem⟩ := groupByFold_mem dates [] k (Or.inr hk)
  have hfi : k.fi ∈ (groupByFileIndex dates).map (·.1) := by
    rw [← alGet_isSome_iff_mem_keys]
    rw [show groupByFileIndex dates = dates.foldl (fun m k =>
      match alGet m k.fi with
      | some ks => alSet m k.fi (ks ++ [k])
      | none => m ++ [(k.fi, [k])]) [] from rfl, hks]
    rfl
  have hfi2 : k.fi ∈ List.insertionSort (· ≤ ·) ((groupByFileIndex dates).map (·.1)) :=
    (List.Perm.mem_iff (List.perm_insertionSort _ _)).mpr hfi
  refine ⟨{ fileIndex := k.fi,
            dateKeys := List.insertionSort baseLe
              ((alGet (groupByFileIndex dates) k.fi).getD []) }, ?_, rfl, ?_⟩
  · rw [fileGroupsAsc, if_neg hd]
    dsimp only
    exact List.mem_map.mpr ⟨k.fi, hfi2, rfl⟩
  · dsimp only
    refine (List.Perm.mem_iff (List.perm_insertionSort baseLe _)).mpr ?_
    rw [show alGet (groupByFileIndex dates) k.fi = some ks from hks]
    exact hmem

theorem fileGroupsAsc_fileIndex_nodup (dates : List SKey) :
    ((fileGroupsAsc dates).map (·.fileIndex)).Nodup := by
  rw [fileGroupsAsc]
  by_cases hd : dates = []
  · rw [if_pos hd]
    simp
  · rw [if_neg hd]
    dsimp only
    rw [List.map_map]
    have hid : (List.insertionSort (· ≤ ·) ((groupByFileIndex dates).map (·.1))).map
        ((fun fg => fg.fileIndex) ∘ (fun fi =>
          ({ fileIndex := fi,
             dateKeys := List.insertionSort baseLe
               ((alGet (groupByFileIndex dates) fi).getD []) } : FileGroup))) =
        List.insertionSort (· ≤ ·) ((groupByFileIndex dates).map (·.1)) := by
      rw [show ((fun fg => fg.fileIndex) ∘ (fun fi =>
        ({ fileIndex := fi,
           dateKeys := List.insertionSort baseLe
             ((alGet (groupByFileIndex dates) fi).getD []) } : FileGroup))) =
          (fun fi => fi) from rfl]
      exact List.map_id _
    rw [hid]
    refine (List.Perm.nodup_iff (List.perm_insertionSort _ _)).mpr ?_
    exact groupByFold_keys_nodup dates [] (by simp)

theorem summaryPeriodGroups_secondKey_spec (dates : List SKey) (lo hi : Nat)
    (g : SummaryGroup) (hg : g ∈ summaryPeriodGroups dates lo hi)
    (k : SKey) (hk : g.secondKey = some k) :
    k ∈ dates ∧ k.pos = 2 ∧ lo ≤ k.base ∧ k.base ≤ hi ∧ k.fi = g.fileIndex := by
  rw [summaryPeriodGroups] at hg
  dsimp only at hg
  obtain ⟨fg, hfg, hmap⟩ := List.mem_filterMap.mp hg
  by_cases hcond : ((match fg.dateKeys.find? (fun k : SKey => k.pos == 1) with
      | some k => if (dateKeysInSummaryRange dates lo hi).contains k then some k else none
      | none => none).isNone &&
      (match fg.dateKeys.find? (fun k : SKey => k.pos == 2) with
      | some k => if (dateKeysInSummaryRange dates lo hi).contains k then some k else none
      | none => none).isNone) = true
  · rw [if_pos hcond] at hmap
    exact absurd hmap (by simp)
  · rw [if_neg hcond] at hmap
    cases hmap
    rw [show (⟨fg.fileIndex,
        match fg.dateKeys.find? (fun k : SKey => k.pos == 1) with
        | some k => if (dateKeysInSummaryRange dates lo hi).contains k then some k else none
        | none => none,
        match fg.dateKeys.find? (fun k : SKey => k.pos == 2) with
        | some k => if (dateKeysInSummaryRange dates lo hi).contains k then some k else none
        | none => none⟩ : SummaryGroup).secondKey =
      (match fg.dateKeys.find? (fun k : SKey => k.pos == 2) with
        | some k => if (dateKeysInSummaryRange dates lo hi).contains k then some k else none
        | none => none) from rfl] at hk
    cases hfind : fg.dateKeys.find? (fun k : SKey => k.pos == 2) with
    | none =>
      rw [hfind] at hk
      exact absurd hk (by simp)
    | some k2 =>
      rw [hfind] at hk
      by_cases hcont : (dateKeysInSummaryRange dates lo hi).contains k2 = true
      · rw [show (match some k2 with
          | some k => if (dateKeysInSummaryRange dates lo hi).contains k then some k else none
          | none => none) =
            if (dateKeysInSummaryRange dates lo hi).contains k2 then some k2 else none
            from rfl, if_pos hcont] at hk
        cases hk
        have hpos : k.pos = 2 := by
          have := List.find?_some hfind
          simpa using this
        have hmem : k ∈ fg.dateKeys := List.mem_of_find?_eq_some hfind
        have hspec := fileGroupsAsc_mem dates fg hfg k hmem
        have hrange : k ∈ dateKeysInSummaryRange dates lo hi := by
          rw [← List.elem_iff]
          exact hcont
        have hbounds : lo ≤ k.base ∧ k.base ≤ hi := by
          have := List.mem_filter.mp hrange
          simpa using this.2
        exact ⟨hspec.1, hpos, hbounds.1, hbounds.2, hspec.2⟩
      · rw [show (match some k2 with
          | some k => if (dateKeysInSummaryRange dates lo hi).contains k then some k else none
          | none => none) =
            if (dateKeysInSummaryRange dates lo hi).contains k2 then some k2 else none
            from rfl, if_neg hcont] at hk
        exact absurd hk (by simp)

theorem summaryPeriodGroups_secondKey_exists (dates : List SKey) (lo hi : Nat)
    (huniq : ∀ k1 ∈ dates, ∀ k2 ∈ dates, k1.fi = k2.fi → k1.pos = k2.pos → k1 = k2)
    (k : SKey) (hk : k ∈ dates) (hpos : k.pos = 2)
    (hlo : lo ≤ k.base) (hhi : k.base ≤ hi) :
    ∃ g ∈ summaryPeriodGroups dates lo hi, g.secondKey = some k := by
  obtain ⟨fg, hfg, hfi, hmem⟩ := fileGroupsAsc_exists dates k hk
  have hfind : fg.dateKeys.find? (fun k : SKey => k.pos == 2) = some k := by
    cases hfind : fg.dateKeys.find? (fun k : SKey => k.pos == 2) with
    | none =>
      have := List.find?_eq_none.mp hfind k hmem
      simp [hpos] at this
    | some k2 =>
      have hk2pos : k2.pos = 2 := by
        have := List.find?_some hfind
        simpa using this
      have hk2mem : k2 ∈ fg.dateKeys := List.mem_of_find?_eq_some hfind
      have hk2spec := fileGroupsAsc_mem dates fg hfg k2 hk2mem
      have : k2 = k := huniq k2 hk2spec.1 k hk (by rw [hk2spec.2, hfi]) (by rw [hk2pos, hpos])
      rw [this]
  have hcont : (dateKeysInSummaryRange dates lo hi).contains k = true := by
    rw [List.elem_iff]
    exact List.mem_filter.mpr ⟨hk, by simp [hlo, hhi]⟩
  refine ⟨⟨fg.fileIndex,
      (match fg.dateKeys.find? (fun k : SKey => k.pos == 1) with
        | some k1 => if (dateKeysInSummaryRange dates lo hi).contains k1 then some k1 else none
        | none => none), some k⟩,
    List.mem_filterMap.mpr ⟨fg, hfg, ?_⟩, rfl⟩
  dsimp only
  rw [hfind]
  rw [show (match some k with
    | some k => if (dateKeysInSummaryRange dates lo hi).contains k then some k else none
    | none => none) =
      if (dateKeysInSummaryRange dates lo hi).contains k then some k else none
      from rfl, if_pos hcont]
  simp

theorem summaryPeriodGroups_fileIndex_nodup (dates : List SKey) (lo hi : Nat) :
    ((summaryPeriodGroups dates lo hi).map (·.fileIndex)).Nodup := by
  refine List.Nodup.sublist (map_fileIndex_filterMap_sublist _ ?_ (fileGroupsAsc dates))
    (fileGroupsAsc_fileIndex_nodup dates)
  intro g g' hfg
  dsimp only at hfg
  split at hfg
  · exact absurd hfg (by simp)
  · cases hfg
    rfl

theorem summaryPeriodGroups_count_secondKey_one (dates : List SKey) (lo hi : Nat)
    (huniq : ∀ k1 ∈ dates, ∀ k2 ∈ dates, k1.fi = k2.fi → k1.pos = k2.pos → k1 = k2)
    (k : SKey) (hk : k ∈ dates) (hpos : k.pos = 2)
    (hlo : lo ≤ k.base) (hhi : k.base ≤ hi) :
    ((summaryPeriodGroups dates lo hi).filter (fun g => g.secondKey = some k)).length = 1 := by
  obtain ⟨g0, hg0, hsk0⟩ :=
    summaryPeriodGroups_secondKey_exists dates lo hi huniq k hk hpos hlo hhi
  have hndmap := summaryPeriodGroups_fileIndex_nodup dates lo hi
  have hnd : (summaryPeriodGroups dates lo hi).Nodup := List.Nodup.of_map _ hndmap
  have hcongr : ∀ g ∈ summaryPeriodGroups dates lo hi,
      (decide (g.secondKey = some k)) = (g == g0) := by
    intro g hg
    by_cases hsk : g.secondKey = some k
    · have h1 := summaryPeriodGroups_secondKey_spec dates lo hi g hg k hsk
      have h2 := summaryPeriodGroups_secondKey_spec dates lo hi g0 hg0 k hsk0
      have hgg : g = g0 := List.inj_on_of_nodup_map hndmap hg hg0
        (by rw [← h1.2.2.2.2, ← h2.2.2.2.2])
      simp [hsk, hgg, hsk0]
    · have hne : g ≠ g0 := by
        intro he
        rw [he, hsk0] at hsk
        exact hsk rfl
      simp [hsk, hne]
  rw [List.filter_congr hcongr, ← List.countP_eq_length_filter,
    ← List.count_eq_countP]
  exact List.count_eq_one_of_mem hnd hg0

theorem summaryPeriodGroups_count_secondKey_zero (dates : List SKey) (lo hi : Nat)
    (k : SKey) (hnot : ¬(k.pos = 2 ∧ lo ≤ k.base ∧ k.base ≤ hi)) :
    ((summaryPeriodGroups dates lo hi).filter (fun g => g.secondKey = some k)).length = 0 := by
  rw [List.length_eq_zero, List.filter_eq_nil_iff]
  intro g hg hsk
  have hspec := summaryPeriodGroups_secondKey_spec dates lo hi g hg k (by simpa using hsk)
  exact hnot ⟨hspec.2.1, hspec.2.2.1, hspec.2.2.2.1⟩

theorem groupDeltaSum_eq_filterSum (sel : SnapshotValue → Int)
    (dates : List SKey) (lo hi : Nat)
    (huniq : ∀ k1 ∈ dates, ∀ k2 ∈ dates, k1.fi = k2.fi → k1.pos = k2.pos → k1 = k2) :
    ∀ dvl : List (SKey × SnapshotValue),
      (dvl.map (·.1)).Nodup →
      (∀ e ∈ dvl, e.1 ∈ dates) →
      groupDeltaSum sel dvl (summaryPeriodGroups dates lo hi) =
        ((dvl.filter (fun e => (lo ≤ e.1.base && e.1.base ≤ hi) && e.1.pos == 2)).map
          (fun e => sel e.2)).sum := by
  intro dvl
  induction dvl with
  | nil =>
    intro _ _
    rw [groupDeltaSum_empty]
    simp
  | cons e rest ih =>
    intro hnd hsub
    obtain ⟨k0, v0⟩ := e
    have hk0 : alGet rest k0 = none := by
      cases halt : alGet rest k0 with
      | none => rfl
      | some v =>
        have : k0 ∈ rest.map (·.1) := by
          rw [← alGet_isSome_iff_mem_keys, halt]
          rfl
        rw [List.map_cons] at hnd
        exact absurd this (List.nodup_cons.mp hnd).1
    rw [groupDeltaSum_cons sel k0 v0 rest hk0,
      ih (by rw [List.map_cons] at hnd; exact (List.nodup_cons.mp hnd).2)
        (fun e he => hsub e (List.mem_cons_of_mem _ he)),
      List.filter_cons]
    by_cases hcond : ((lo ≤ k0.base && k0.base ≤ hi) && k0.pos == 2) = true
    · rw [if_pos hcond]
      have hc : (lo ≤ k0.base ∧ k0.base ≤ hi) ∧ k0.pos = 2 := by
        simpa [Bool.and_eq_true] using hcond
      rw [summaryPeriodGroups_count_secondKey_one dates lo hi huniq k0
        (hsub (k0, v0) (by simp)) hc.2 hc.1.1 hc.1.2]
      rw [List.map_cons, List.sum_cons]
      push_cast
      ring
    · rw [if_neg hcond]
      have hc : ¬(k0.pos = 2 ∧ lo ≤ k0.base ∧ k0.base ≤ hi) := by
        intro hcc
        exact hcond (by simp [hcc.1, hcc.2.1, hcc.2.2])
      rw [summaryPeriodGroups_count_secondKey_zero dates lo hi k0 hc]
      push_cast
      ring

theorem rawSummaryRow_totals_eq_formulas (h : Holding) (dates : List SKey) (lo hi : Nat)
    (hnd : (h.dateValues.map (·.1)).Nodup)
    (hsub : ∀ e ∈ h.dateValues, e.1 ∈ dates)
    (huniq : ∀ k1 ∈ dates, ∀ k2 ∈ dates, k1.fi = k2.fi → k1.pos = k2.pos → k1 = k2) :
    (rawSummaryRow (summaryPeriodGroups dates lo hi) h).bought = formulaBought h lo hi ∧
    (rawSummaryRow (summaryPeriodGroups dates lo hi) h).sold = formulaSold h lo hi ∧
    (rawSummaryRow (summaryPeriodGroups dates lo hi) h).net = formulaNet h lo hi := by
  have hfull := rawSummaryRow_bought_sold_full (summaryPeriodGroups dates lo hi) h
  have hb : (rawSummaryRow (summaryPeriodGroups dates lo hi) h).bought =
      formulaBought h lo hi := by
    rw [hfull.1, fullDeltaSum_dvPairs,
      groupDeltaSum_eq_filterSum _ dates lo hi huniq _ hnd hsub]
    rfl
  have hs : (rawSummaryRow (summaryPeriodGroups dates lo hi) h).sold =
      formulaSold h lo hi := by
    rw [hfull.2, fullDeltaSum_dvPairs,
      groupDeltaSum_eq_filterSum _ dates lo hi huniq _ hnd hsub]
    rfl
  refine ⟨hb, hs, ?_⟩
  rw [(rawSummaryRow_net_still (summaryPeriodGroups dates lo hi) h).1, hb, hs]
  rfl

/-- Counterexample to C4 as stated: two files with interleaved periods
(100→110 and 105→108) for the same identity.  Over the range [100, 110]
the in-browser reconciler starts at the first group of the fileIndex walk
(the 105→108 file, sorted first by its second date) and reports
`initialHolding = 200`, `stillHolding = 220`, while the `SummaryDynamic`
formulas pick the minimum `KeyDateRank` (the calendar-earliest in-range
snapshot, date 100) and report `100` and `120`.  The bought/sold/net
figures agree — only the initial/still pair differs. -/
theorem claim_formula_mirror_counterexample :
    (rawSummaryRows c4Pipeline.1 c4Pipeline.2 100 110).map
        (fun r => (r.initialHolding, r.stillHolding)) = [((200 : Int), (220 : Int))] ∧
      c4Pipeline.1.map (fun h => (formulaInitial h 100 110, formulaStill h 100 110)) =
        [((100 : Int), (120 : Int))] ∧
      (rawSummaryRows c4Pipeline.1 c4Pipeline.2 100 110).map
        (fun r => (r.bought, r.sold, r.net)) =
        c4Pipeline.1.map (fun h =>
          (formulaBought h 100 110, formulaSold h 100 110, formulaNet h 100 110)) := by
  decide

/-- **C4** (amended): for every holding whose snapshot keys are drawn
without duplicates from the consolidated key list, with at most one key per
(fileIndex, position) pair, the `SummaryDynamic` `SUMIFS` formulas compute
exactly the reconciler's `bought`, `sold` and `net` for every range — the
`endMode == pos1` exclusion clause never changes the totals, because when
`endMode` is `pos1` the end group has no in-range second-key value to
exclude.  (The `initialHolding`/`stillHolding` pair is *not* mirrored in
general — see the counterexample — though it agrees whenever the
rank-minimal in-range snapshot lies in the reconciler's start group.) -/
theorem claim_formula_mirror_amended (h : Holding) (dates : List SKey) (lo hi : Nat)
    (hnd : (h.dateValues.map (·.1)).Nodup)
    (hsub : ∀ e ∈ h.dateValues, e.1 ∈ dates)
    (huniq : ∀ k1 ∈ dates, ∀ k2 ∈ dates, k1.fi = k2.fi → k1.pos = k2.pos → k1 = k2) :
    (rawSummaryRow (summaryPeriodGroups dates lo hi) h).bought = formulaBought h lo hi ∧
    (rawSummaryRow (summaryPeriodGroups dates lo hi) h).sold = formulaSold h lo hi ∧
    (rawSummaryRow (summaryPeriodGroups dates lo hi) h).net = formulaNet h lo hi :=
  rawSummaryRow_totals_eq_formulas h dates lo hi hnd hsub huniq

/-- The amended C4 theorem applied to the concrete two-file pipeline of the
counterexample, its hypotheses discharged by evaluation. -/
theorem claim_formula_mirror_amended_witness :
    ((c4Holding.dateValues.map (·.1)).Nodup ∧
      (∀ e ∈ c4Holding.dateValues, e.1 ∈ c4Pipeline.2) ∧
      (∀ k1 ∈ c4Pipeline.2, ∀ k2 ∈ c4Pipeline.2,
        k1.fi = k2.fi → k1.pos = k2.pos → k1 = k2)) ∧
    ((rawSummaryRow (summaryPeriodGroups c4Pipeline.2 100 110) c4Holding).bought =
        formulaBought c4Holding 100 110 ∧
      (rawSummaryRow (summaryPeriodGroups c4Pipeline.2 100 110) c4Holding).sold =
        formulaSold c4Holding 100 110 ∧
      (rawSummaryRow (summaryPeriodGroups c4Pipeline.2 100 110) c4Holding).net =
        formulaNet c4Holding 100 110) :=
  ⟨⟨by decide, by decide, by decide⟩,
    claim_formula_mirror_amended c4Holding c4Pipeline.2 100 110
      (by decide) (by decide) (by decide)⟩
